import Mathlib

set_option maxHeartbeats 1000000
set_option maxRecDepth 4000

/-!
# Verification of the GenAI_BuildBuddy orchestration core

Shallow embedding of the repository's sandboxed tool layer (`agent/tools.py`)
and orchestration state machine (`agent/graph.py`, `main.py`), together with
proofs of the specification's testable properties.

Modelling conventions:
* Filesystem paths are lists of components (`Path`); `pathlib`'s `resolve` is
  modelled as lexical normalisation of `.` and `..` (symbolic links are
  idealised away: the source compares the fully resolved forms of both the
  candidate and the project root, so containment is insensitive to this
  idealisation).
* The Python `json` module is modelled by `loads` / `dumps` over a `JValue`
  AST.  The parser implements the RFC 8259 grammar as `json.loads` does:
  numbers follow the no-leading-zero rule, fraction/exponent forms (and the
  `NaN`/`Infinity`/`-Infinity` constants Python accepts) parse to an opaque
  float token, strings decode the named escapes and `\uXXXX` (including
  surrogate pairs) and reject raw control characters, and duplicate object
  keys resolve as Python's `dict` does (first position, last value).
  `dumps` escapes like `json.dumps` with `ensure_ascii=True` (named escapes,
  `\uXXXX` for other control and non-ASCII characters, surrogate pairs
  beyond the BMP).  Residual idealisations: float tokens carry their source
  text (IEEE-754 shortest-repr re-serialisation is outside the embedding, so
  the canonical-write theorem is stated for float-free mappings), lone
  `\uD800`-`\uDFFF` escapes are treated as parse failures (Lean `Char`
  holds only Unicode scalar values; the program would raise
  `UnicodeEncodeError` when writing such a string), and the parser has no
  recursion-depth ceiling.
* The filesystem is a finite association list from absolute paths to file
  contents; directories are implicit (the project root plus every proper
  ancestor of a stored file).  OS-level permission errors are not modelled.
-/

namespace BuildBuddy

/-! ## JSON value model (Python `json` module) -/

/-- Abstract syntax of JSON values as produced by `json.loads`:
`null`, booleans, (integer) numbers, strings, arrays, and objects
(association lists in insertion order, mirroring Python's `dict`). -/
inductive JValue where
  | null : JValue
  | bool : Bool → JValue
  | num : Int → JValue
  /-- A JSON number with a fraction or exponent part (or `NaN`/`Infinity`),
  which `json.loads` turns into a Python `float`; the constructor carries the
  source text.  Its IEEE-754 value is not modelled. -/
  | float : List Char → JValue
  | str : List Char → JValue
  | arr : List JValue → JValue
  | obj : List (List Char × JValue) → JValue
deriving Repr

/-- The lowercase hexadecimal digit character for `d < 16`. -/
def hexDigitChar (d : Nat) : Char :=
  if d < 10 then Char.ofNat (48 + d) else Char.ofNat (87 + d)

/-- Four lowercase hex digits for `n < 0x10000`, as in a `\uXXXX` escape. -/
def toHex4 (n : Nat) : List Char :=
  [hexDigitChar (n / 4096 % 16), hexDigitChar (n / 256 % 16),
   hexDigitChar (n / 16 % 16), hexDigitChar (n % 16)]

/-- Escape of a single character inside a JSON string literal, as
`json.dumps` with the default `ensure_ascii=True` performs it: the named
escapes, `\uXXXX` for the remaining control and non-ASCII characters, and
surrogate pairs for characters beyond the BMP. -/
def escapeChar (c : Char) : List Char :=
  if c = '"' then ['\\', '"']
  else if c = '\\' then ['\\', '\\']
  else if c = '\n' then ['\\', 'n']
  else if c = '\t' then ['\\', 't']
  else if c = '\r' then ['\\', 'r']
  else if c = Char.ofNat 8 then ['\\', 'b']
  else if c = Char.ofNat 12 then ['\\', 'f']
  else if c.toNat < 32 ∨ 127 ≤ c.toNat then
    if c.toNat < 65536 then '\\' :: 'u' :: toHex4 c.toNat
    else
      '\\' :: 'u' :: toHex4 (55296 + (c.toNat - 65536) / 1024) ++
        '\\' :: 'u' :: toHex4 (56320 + (c.toNat - 65536) % 1024)
  else [c]

/-- Escape a whole JSON string body. -/
def escStr : List Char → List Char
  | [] => []
  | c :: t => escapeChar c ++ escStr t

/-- The decimal digit character for `d < 10`. -/
def digitChar (d : Nat) : Char := Char.ofNat (48 + d)

/-- Decimal rendering of a natural number (no leading zeros; `0 ↦ "0"`). -/
def dumpNat (n : Nat) : List Char :=
  if n = 0 then ['0'] else ((Nat.digits 10 n).reverse.map digitChar)

/-- Decimal rendering of an integer, as Python prints `int`. -/
def dumpInt (n : Int) : List Char :=
  if n < 0 then '-' :: dumpNat n.natAbs else dumpNat n.toNat

/-- Indentation emitted by `json.dumps(..., indent=2)` at nesting level `n`. -/
def indentN (n : Nat) : List Char := List.replicate (2 * n) ' '

mutual

/-- `json.dumps(v, indent=2)` (as a character list), at nesting level `lvl`:
pretty-printed with two-space indentation, item separator `","` + newline and
key separator `": "`, exactly as Python's `json.dumps` with `indent=2`. -/
def dumpVal : JValue → Nat → List Char
  | .null, _ => ['n', 'u', 'l', 'l']
  | .bool true, _ => ['t', 'r', 'u', 'e']
  | .bool false, _ => ['f', 'a', 'l', 's', 'e']
  | .num n, _ => dumpInt n
  | .float raw, _ => raw
  | .str s, _ => '"' :: (escStr s ++ ['"'])
  | .arr [], _ => ['[', ']']
  | .arr (x :: xs), lvl =>
      '[' :: '\n' :: (indentN (lvl + 1) ++ dumpVal x (lvl + 1) ++ dumpElems xs (lvl + 1)
        ++ '\n' :: (indentN lvl ++ [']']))
  | .obj [], _ => ['{', '}']
  | .obj (kv :: kvs), lvl =>
      '{' :: '\n' :: (indentN (lvl + 1) ++ dumpMember kv (lvl + 1) ++ dumpMembers kvs (lvl + 1)
        ++ '\n' :: (indentN lvl ++ ['}']))

/-- One `"key": value` member of a pretty-printed JSON object. -/
def dumpMember : List Char × JValue → Nat → List Char
  | (k, v), lvl => '"' :: (escStr k ++ '"' :: ':' :: ' ' :: dumpVal v lvl)

/-- The `",\n<indent>elem"` continuation of a pretty-printed JSON array. -/
def dumpElems : List JValue → Nat → List Char
  | [], _ => []
  | x :: xs, lvl => ',' :: '\n' :: (indentN lvl ++ dumpVal x lvl ++ dumpElems xs lvl)

/-- The `",\n<indent>member"` continuation of a pretty-printed JSON object. -/
def dumpMembers : List (List Char × JValue) → Nat → List Char
  | [], _ => []
  | kv :: kvs, lvl => ',' :: '\n' :: (indentN lvl ++ dumpMember kv lvl ++ dumpMembers kvs lvl)

end

/-- `json.dumps(v, indent=2)` as a string. -/
def dumps (v : JValue) : String := String.mk (dumpVal v 0)

/-- JSON whitespace characters (RFC 8259 / Python `json`). -/
def isWsChar (c : Char) : Bool := c = ' ' || c = '\n' || c = '\t' || c = '\r'

/-- Drop leading JSON whitespace. -/
def skipWs : List Char → List Char
  | [] => []
  | c :: r => if isWsChar c then skipWs r else c :: r

/-- Inverse of `escapeChar` on the character following a backslash. -/
def unescChar (e : Char) : Option Char :=
  if e = '"' then some '"'
  else if e = '\\' then some '\\'
  else if e = '/' then some '/'
  else if e = 'n' then some '\n'
  else if e = 't' then some '\t'
  else if e = 'r' then some '\r'
  else if e = 'b' then some (Char.ofNat 8)
  else if e = 'f' then some (Char.ofNat 12)
  else none

/-- The numeric value of a hexadecimal digit character (either case), as
accepted in a `\uXXXX` escape. -/
def hexDigitVal (c : Char) : Option Nat :=
  if c.isDigit then some (c.toNat - 48)
  else if 'a' ≤ c ∧ c ≤ 'f' then some (c.toNat - 87)
  else if 'A' ≤ c ∧ c ≤ 'F' then some (c.toNat - 55)
  else none

/-- The code unit denoted by four hex digits of a `\uXXXX` escape. -/
def hexQuad (a b c d : Char) : Option Nat :=
  match hexDigitVal a, hexDigitVal b, hexDigitVal c, hexDigitVal d with
  | some x, some y, some z, some w => some (4096 * x + 256 * y + 16 * z + w)
  | _, _, _, _ => none

/-- Parse the body of a JSON string literal (the opening quote already
consumed), as strict `json.loads` does: named escapes and `\uXXXX`
(surrogate pairs combined into one scalar), raw control characters
rejected.  Lone surrogate escapes are rejected (they have no Lean `Char`
representation; Python would later fail to UTF-8-encode them).
Returns the decoded body and the input after the closing quote.  Fuelled
to make the recursion structural on the fuel; every step consumes at
least one input character, so `length + 1` fuel (see `parseStr`) always
suffices. -/
def parseStrF : Nat → List Char → Option (List Char × List Char)
  | 0 => fun _ => none
  | fuel + 1 => fun cs =>
    match cs with
    | [] => none
    | c :: r =>
      if c = '"' then some ([], r)
      else if c = '\\' then
        match r with
        | [] => none
        | e :: r2 =>
          if e = 'u' then
            match r2 with
            | h1 :: h2 :: h3 :: h4 :: r3 =>
              match hexQuad h1 h2 h3 h4 with
              | none => none
              | some code =>
                if 55296 ≤ code ∧ code ≤ 56319 then
                  match r3 with
                  | b1 :: b2 :: l1 :: l2 :: l3 :: l4 :: r4 =>
                    if b1 = '\\' then
                      if b2 = 'u' then
                        match hexQuad l1 l2 l3 l4 with
                        | some lo =>
                          if 56320 ≤ lo ∧ lo ≤ 57343 then
                            (parseStrF fuel r4).map fun p =>
                              (Char.ofNat (65536 + (code - 55296) * 1024 + (lo - 56320))
                                :: p.1, p.2)
                          else none
                        | none => none
                      else none
                    else none
                  | _ => none
                else if 56320 ≤ code ∧ code ≤ 57343 then none
                else (parseStrF fuel r3).map fun p => (Char.ofNat code :: p.1, p.2)
            | _ => none
          else
            match unescChar e with
            | some u => (parseStrF fuel r2).map fun p => (u :: p.1, p.2)
            | none => none
      else if c.toNat < 32 then none
      else (parseStrF fuel r).map fun p => (c :: p.1, p.2)

/-- The string-literal body parser at its always-sufficient fuel. -/
def parseStr (cs : List Char) : Option (List Char × List Char) :=
  parseStrF (cs.length + 1) cs

/-- Numeric value of a decimal digit character. -/
def digitVal (c : Char) : Nat := c.toNat - 48

/-- Consume a maximal (possibly empty) run of decimal digits. -/
def parseDigits : List Char → List Char × List Char
  | [] => ([], [])
  | c :: r =>
    if c.isDigit then
      match parseDigits r with
      | (ds, rest) => (c :: ds, rest)
    else ([], c :: r)

/-- The natural number denoted by a run of decimal digit characters. -/
def digitsToNat (l : List Char) : Nat := l.foldl (fun a c => 10 * a + digitVal c) 0

/-- Parse the exponent digits of a JSON number (after `e`/`E`): an optional
sign and at least one digit; returns the consumed text. -/
def parseExpPart (cs : List Char) : Option (List Char × List Char) :=
  match cs with
  | [] => none
  | c :: r =>
    if c = '+' ∨ c = '-' then
      match parseDigits r with
      | ([], _) => none
      | (ds, r2) => some (c :: ds, r2)
    else
      match parseDigits cs with
      | ([], _) => none
      | (ds, r2) => some (ds, r2)

/-- Parse the optional fraction and exponent of a JSON number, given the
already-consumed integer part `intRaw`.  Returns whether the number is a
float (has a fraction or exponent), its full consumed text, and the rest. -/
def parseFracExp (intRaw : List Char) (cs : List Char) :
    Option ((Bool × List Char) × List Char) :=
  match cs with
  | [] => some ((false, intRaw), [])
  | c :: r =>
    if c = '.' then
      match parseDigits r with
      | ([], _) => none
      | (fd, r2) =>
        match r2 with
        | [] => some ((true, intRaw ++ '.' :: fd), [])
        | e :: r3 =>
          if e = 'e' ∨ e = 'E' then
            match parseExpPart r3 with
            | some (ed, r4) => some ((true, intRaw ++ '.' :: fd ++ e :: ed), r4)
            | none => none
          else some ((true, intRaw ++ '.' :: fd), e :: r3)
    else if c = 'e' ∨ c = 'E' then
      match parseExpPart r with
      | some (ed, r2) => some ((true, intRaw ++ c :: ed), r2)
      | none => none
    else some ((false, intRaw), c :: r)

/-- Parse an unsigned JSON number: `0 | [1-9][0-9]*` (leading zeros
rejected, as `json.loads` does) followed by an optional fraction and
exponent.  Returns whether it is a float, its text, and the rest. -/
def parseUnsigned (cs : List Char) : Option ((Bool × List Char) × List Char) :=
  match cs with
  | [] => none
  | c :: r =>
    if c.isDigit then
      if c = '0' then
        match r with
        | [] => some ((false, ['0']), [])
        | d :: r2 => if d.isDigit then none else parseFracExp ['0'] (d :: r2)
      else
        parseFracExp (c :: (parseDigits r).1) (parseDigits r).2
    else none

/-- Turn a parsed unsigned number into a `JValue`, applying the sign:
pure integers become Python `int`s, fraction/exponent forms `float`s. -/
def parseNumToken (neg : Bool) (cs : List Char) : Option (JValue × List Char) :=
  match parseUnsigned cs with
  | some ((isF, raw), rest) =>
    if isF then some (.float (if neg then '-' :: raw else raw), rest)
    else if neg then some (.num (-(Int.ofNat (digitsToNat raw))), rest)
    else some (.num (Int.ofNat (digitsToNat raw)), rest)
  | none => none

/-- Insert a key/value pair as Python's `dict` does while `json.loads`
builds an object: an existing key keeps its position and takes the new
value; a new key is appended. -/
def insertKV (m : List (List Char × JValue)) (k : List Char) (v : JValue) :
    List (List Char × JValue) :=
  match m with
  | [] => [(k, v)]
  | (k0, v0) :: t => if k0 = k then (k0, v) :: t else (k0, v0) :: insertKV t k v

/-- The Python `dict` built from a parsed member list (duplicate keys
resolve to the first position with the last value). -/
def pyDict (l : List (List Char × JValue)) : List (List Char × JValue) :=
  l.foldl (fun m kv => insertKV m kv.1 kv.2) []

/-- Recursive-descent JSON parser (model of `json.loads`), fuelled to make
the recursion structural on the fuel.  One layer of fuel provides the three
mutually recursive parsing functions: complete values, the `(',' value)* ']'`
continuation of an array, and the `(',' member)* '}'` continuation of an
object; each returns the parsed result and the remaining input. -/
def parseTriple : Nat →
    (List Char → Option (JValue × List Char)) ×
    (List Char → Option (List JValue × List Char)) ×
    (List Char → Option (List (List Char × JValue) × List Char))
  | 0 => (fun _ => none, fun _ => none, fun _ => none)
  | fuel + 1 =>
    (fun cs =>
      match cs with
      | [] => none
      | c :: r =>
        if c = 'n' then
          match r with
          | c1 :: c2 :: c3 :: r2 =>
            if c1 = 'u' then if c2 = 'l' then if c3 = 'l' then some (.null, r2)
              else none else none else none
          | _ => none
        else if c = 't' then
          match r with
          | c1 :: c2 :: c3 :: r2 =>
            if c1 = 'r' then if c2 = 'u' then if c3 = 'e' then some (.bool true, r2)
              else none else none else none
          | _ => none
        else if c = 'f' then
          match r with
          | c1 :: c2 :: c3 :: c4 :: r2 =>
            if c1 = 'a' then if c2 = 'l' then if c3 = 's' then if c4 = 'e' then
              some (.bool false, r2) else none else none else none else none
          | _ => none
        else if c = '"' then
          (parseStr r).map fun p => (.str p.1, p.2)
        else if c = '[' then
          match skipWs r with
          | [] => none
          | c2 :: r2 =>
            if c2 = ']' then some (.arr [], r2)
            else
              match (parseTriple fuel).1 (c2 :: r2) with
              | some (v, r3) =>
                ((parseTriple fuel).2.1 (skipWs r3)).map fun p => (.arr (v :: p.1), p.2)
              | none => none
        else if c = '{' then
          match skipWs r with
          | [] => none
          | c2 :: r2 =>
            if c2 = '}' then some (.obj [], r2)
            else if c2 = '"' then
              match parseStr r2 with
              | some (k, r3) =>
                match skipWs r3 with
                | [] => none
                | c3 :: r4 =>
                  if c3 = ':' then
                    match (parseTriple fuel).1 (skipWs r4) with
                    | some (v, r5) =>
                      ((parseTriple fuel).2.2 (skipWs r5)).map fun p =>
                        (.obj (pyDict ((k, v) :: p.1)), p.2)
                    | none => none
                  else none
              | none => none
            else none
        else if c = 'I' then
          match r with
          | c1 :: c2 :: c3 :: c4 :: c5 :: c6 :: c7 :: r2 =>
            if c1 = 'n' ∧ c2 = 'f' ∧ c3 = 'i' ∧ c4 = 'n' ∧ c5 = 'i' ∧ c6 = 't' ∧ c7 = 'y' then
              some (.float ['I', 'n', 'f', 'i', 'n', 'i', 't', 'y'], r2)
            else none
          | _ => none
        else if c = 'N' then
          match r with
          | c1 :: c2 :: r2 =>
            if c1 = 'a' ∧ c2 = 'N' then some (.float ['N', 'a', 'N'], r2) else none
          | _ => none
        else if c = '-' then
          match r with
          | [] => none
          | d :: r2 =>
            if d = 'I' then
              match r2 with
              | c1 :: c2 :: c3 :: c4 :: c5 :: c6 :: c7 :: r3 =>
                if c1 = 'n' ∧ c2 = 'f' ∧ c3 = 'i' ∧ c4 = 'n' ∧ c5 = 'i' ∧ c6 = 't' ∧ c7 = 'y' then
                  some (.float ['-', 'I', 'n', 'f', 'i', 'n', 'i', 't', 'y'], r3)
                else none
              | _ => none
            else parseNumToken true (d :: r2)
        else if c.isDigit then
          parseNumToken false (c :: r)
        else none,
     fun cs =>
      match cs with
      | [] => none
      | c :: r =>
        if c = ']' then some ([], r)
        else if c = ',' then
          match (parseTriple fuel).1 (skipWs r) with
          | some (v, r2) =>
            ((parseTriple fuel).2.1 (skipWs r2)).map fun p => (v :: p.1, p.2)
          | none => none
        else none,
     fun cs =>
      match cs with
      | [] => none
      | c :: r =>
        if c = '}' then some ([], r)
        else if c = ',' then
          match skipWs r with
          | [] => none
          | c2 :: r2 =>
            if c2 = '"' then
              match parseStr r2 with
              | some (k, r3) =>
                match skipWs r3 with
                | [] => none
                | c3 :: r4 =>
                  if c3 = ':' then
                    match (parseTriple fuel).1 (skipWs r4) with
                    | some (v, r5) =>
                      ((parseTriple fuel).2.2 (skipWs r5)).map fun p => ((k, v) :: p.1, p.2)
                    | none => none
                  else none
              | none => none
            else none
        else none)

/-- Parse one JSON value (the value component of `parseTriple`). -/
def parseVal (fuel : Nat) (cs : List Char) : Option (JValue × List Char) :=
  (parseTriple fuel).1 cs

/-- Parse the continuation of a JSON array (see `parseTriple`). -/
def parseElems (fuel : Nat) (cs : List Char) : Option (List JValue × List Char) :=
  (parseTriple fuel).2.1 cs

/-- Parse the continuation of a JSON object (see `parseTriple`). -/
def parseMembers (fuel : Nat) (cs : List Char) :
    Option (List (List Char × JValue) × List Char) :=
  (parseTriple fuel).2.2 cs

/-- Model of `json.loads`: parse a complete JSON document, requiring the
whole input (up to surrounding whitespace) to be consumed. -/
def loads (s : String) : Option JValue :=
  match parseVal (s.data.length + 1) (skipWs s.data) with
  | some (v, rest) => if skipWs rest = [] then some v else none
  | none => none

/-! ## Path model (`pathlib` as used by `agent/tools.py`) -/

/-- An absolute filesystem path, as the list of its components below the
filesystem root (`/a/b` is `["a", "b"]`; the filesystem root itself is `[]`). -/
abbrev Path := List String

/-- Split the raw text of a path on `'/'` (keeping empty segments, which are
filtered out afterwards, as `pathlib` collapses `//` and trailing slashes). -/
def splitRaw : List Char → List Char → List String
  | [], cur => [String.mk cur.reverse]
  | c :: r, cur =>
    if c = '/' then String.mk cur.reverse :: splitRaw r [] else splitRaw r (c :: cur)

/-- The components of a path string (empty segments dropped). -/
def splitPath (s : String) : List String := (splitRaw s.data []).filter (· ≠ "")

/-- Whether a path string is absolute (starts with `'/'`). -/
def isAbsPath (s : String) : Bool :=
  match s.data with
  | '/' :: _ => true
  | _ => false

/-- `pathlib`'s `root / path`: an absolute right operand replaces the left. -/
def joinUnder (root : Path) (s : String) : Path :=
  if isAbsPath s then splitPath s else root ++ splitPath s

/-- `Path.resolve()` modelled lexically: `.` is dropped and `..` removes the
preceding component (at the filesystem root, `..` stays at the root).
Symbolic links are idealised away (see the module docstring). -/
def normalize (p : Path) : Path :=
  p.foldl (fun acc c => if c = "." then acc else if c = ".." then acc.dropLast else acc ++ [c]) []

/-- `pathlib`'s `p.parents`: every proper prefix of `p` (the immediate parent,
its parent, ..., down to the filesystem root). -/
def pyParents (p : Path) : List Path := (List.range p.length).map fun k => p.take k

/-- Render an absolute `Path` back to its string form. -/
def pathToString (p : Path) : String := p.foldl (fun acc c => acc ++ "/" ++ c) ""

/-- Render a root-relative `Path` back to its string form
(`str(f.relative_to(PROJECT_ROOT))`). -/
def relPathString (l : List String) : String :=
  match l with
  | [] => "."
  | h :: t => t.foldl (fun acc c => acc ++ "/" ++ c) h

/-- `safe_path_for_project` from `agent/tools.py`:
resolve `(PROJECT_ROOT / path)` and raise
`ValueError("Attempt to write outside project root")` unless the resolved
project root is one of the resolved path's parents, its immediate parent,
or the path itself. -/
def safe_path_for_project (root : Path) (path : String) : Except String Path :=
  if normalize root ∉ pyParents (normalize (joinUnder root path)) ∧
      normalize root ≠ (normalize (joinUnder root path)).dropLast ∧
      normalize root ≠ normalize (joinUnder root path) then
    .error "Attempt to write outside project root"
  else
    .ok (normalize (joinUnder root path))

/-! ## Filesystem model and the file tools -/

/-- The filesystem: a finite map from absolute paths to the text contents of
the regular files stored there.  Directories are implicit: the project root
and every proper ancestor of a stored file count as directories. -/
abbrev FS := List (Path × String)

/-- The content of the regular file at `p`, if one exists. -/
def fsRead (fs : FS) (p : Path) : Option String :=
  (fs.find? fun e => e.1 = p).map fun e => e.2

/-- Create or overwrite the regular file at `p` with content `c`. -/
def fsWrite (fs : FS) (p : Path) (c : String) : FS :=
  (fs.filter fun e => e.1 ≠ p) ++ [(p, c)]

/-- Whether `p` is (implicitly) a directory: the resolved project root itself,
or a proper ancestor of some stored file. -/
def isDir (root : Path) (fs : FS) (p : Path) : Prop :=
  p = normalize root ∨ ∃ e ∈ fs, p <+: e.1 ∧ p ≠ e.1

instance (root : Path) (fs : FS) (p : Path) : Decidable (isDir root fs p) := by
  unfold isDir
  exact inferInstance

/-- Whether some proper ancestor of `p` is a regular file (in which case
`p.parent.mkdir(parents=True)` would fail); such degenerate writes are
modelled as an `OSError`. -/
def hasFileAncestor (fs : FS) (p : Path) : Prop :=
  ∃ e ∈ fs, e.1 <+: p ∧ e.1 ≠ p

instance (fs : FS) (p : Path) : Decidable (hasFileAncestor fs p) := by
  unfold hasFileAncestor
  exact inferInstance

/-- `read_file` from `agent/tools.py`: sandbox-resolve the path; return `""`
if nothing exists there; raise `IsADirectoryError` if a directory does;
otherwise return the file's content. -/
def read_file (root : Path) (fs : FS) (path : String) : Except String String :=
  match safe_path_for_project root path with
  | .error e => .error e
  | .ok p =>
    match fsRead fs p with
    | some c => .ok c
    | none => if isDir root fs p then .error "IsADirectoryError" else .ok ""

/-- `write_file` from `agent/tools.py`: sandbox-resolve the path, create the
parent directories, then attempt `json.loads` on the content; a mapping is
re-serialised with `json.dumps(..., indent=2)`, a JSON string is written in
its *decoded* form, any other successfully parsed value reaches
`f.write(...)` as a non-string and raises `TypeError` *after* `open(p, "w")`
has already truncated the file; content that fails to parse is written
verbatim.  Returns the new filesystem and the tool's result. -/
def write_file (root : Path) (fs : FS) (path content : String) :
    FS × Except String String :=
  match safe_path_for_project root path with
  | .error e => (fs, .error e)
  | .ok p =>
    if isDir root fs p then (fs, .error "IsADirectoryError")
    else if hasFileAncestor fs p then (fs, .error "OSError")
    else
      match loads content with
      | some (.obj m) => (fsWrite fs p (dumps (.obj m)), .ok ("WROTE:" ++ pathToString p))
      | some (.str s) => (fsWrite fs p (String.mk s), .ok ("WROTE:" ++ pathToString p))
      | some _ => (fsWrite fs p "", .error "TypeError: write() argument must be str")
      | none => (fsWrite fs p content, .ok ("WROTE:" ++ pathToString p))

/-- The list built by `list_files` before joining:
`[str(f.relative_to(PROJECT_ROOT)) for f in p.glob("**/*") if f.is_file()]`. -/
def globEntries (root : Path) (fs : FS) (p : Path) : List String :=
  (fs.filter fun e => p.isPrefixOf e.1 && e.1 ≠ p).map fun e =>
    relPathString (e.1.drop (normalize root).length)

/-- `list_files` from `agent/tools.py`: sandbox-resolve the directory;
return an `"ERROR: ..."` *string* (not an exception) when it is not a
directory; otherwise the newline-joined root-relative paths of all regular
files below it, or `"No files found."`. -/
def list_files (root : Path) (fs : FS) (directory : String) : Except String String :=
  match safe_path_for_project root directory with
  | .error e => .error e
  | .ok p =>
    if isDir root fs p then
      let files := globEntries root fs p
      .ok (if files = [] then "No files found." else String.intercalate "\n" files)
    else
      .ok ("ERROR: " ++ pathToString p ++ " is not a directory")

/-! ## Data model of the pipeline (`agent/states.py` is not part of the
sources; these records are reconstructed from the specification). -/

/-- Modelled from the spec: `ImplementationStep` (§3) from the missing
`agent/states.py` — one unit of work: `{filepath, task_description}`. -/
structure ImplementationStep where
  filepath : String
  task_description : String
deriving Repr, DecidableEq

/-- Modelled from the spec: `Plan` (§3) from the missing `agent/states.py` —
name, description, tech-stack list, feature list, target file list. -/
structure Plan where
  name : String
  description : String
  tech_stack : List String
  features : List String
  files : List String
deriving Repr, DecidableEq

/-- Modelled from the spec: `TaskPlan` (§3) from the missing
`agent/states.py` — the ordered implementation steps plus the back-reference
to the originating `Plan` (attached after creation by `architect_agent`). -/
structure TaskPlan where
  implementation_steps : List ImplementationStep
  plan : Option Plan
deriving Repr, DecidableEq

/-- Modelled from the spec: `CoderState` (the spec's `ExecutionState`, §3)
from the missing `agent/states.py` — `{task_plan, current_step_idx}`. -/
structure CoderState where
  task_plan : TaskPlan
  current_step_idx : Nat
deriving Repr, DecidableEq

/-- The LangGraph pipeline state (`StateGraph(dict)` in `agent/graph.py`):
the keys that the three agent nodes read and write.  A node returns a partial
update; absent keys keep their previous values, which the record-update
modelling below reproduces. -/
structure GraphState where
  user_prompt : String
  plan : Option Plan
  task_plan : Option TaskPlan
  coder_state : Option CoderState
  status : Option String
deriving Repr, DecidableEq

/-! ## The agent nodes (`agent/graph.py`) -/

/-- Errors raised by the agent nodes. -/
inductive AgentErr where
  /-- `state["plan"]` / `state["task_plan"]` missing (`KeyError`). -/
  | keyError : AgentErr
  /-- `ValueError("Planner did not return a valid response.")` -/
  | plannerNoResponse : AgentErr
  /-- `ValueError("Architect did not return a valid response.")` -/
  | architectNoResponse : AgentErr
  /-- A failure inside one step's worker sub-session (the `read_file` call or
  the react-agent invocation raised), tagged with the step's index and target
  file. -/
  | stepFailure (idx : Nat) (filepath : String) : AgentErr
deriving Repr, DecidableEq

/-- Whether an `Except` result is an error (a raised exception). -/
def isErr {ε α : Type} : Except ε α → Bool
  | .error _ => true
  | .ok _ => false

/-- `planner_agent` from `agent/graph.py`.  The Reasoning Engine is modelled
as the stream `responses` of structured outputs it would return on successive
invocations; the node consumes exactly one element (it never retries) and
raises if that element is `none`. -/
def planner_agent (responses : List (Option Plan)) (st : GraphState) :
    Except AgentErr GraphState × List (Option Plan) :=
  (match responses.headD none with
    | none => .error .plannerNoResponse
    | some r => .ok { st with plan := some r },
   responses.tail)

/-- `architect_agent` from `agent/graph.py`: look up the `Plan` (a `KeyError`
if absent, before the engine is consulted), consume exactly one engine
response, raise if it is `none`, and otherwise attach the original `Plan` to
the returned `TaskPlan`. -/
def architect_agent (responses : List (Option TaskPlan)) (st : GraphState) :
    Except AgentErr GraphState × List (Option TaskPlan) :=
  match st.plan with
  | none => (.error .keyError, responses)
  | some plan =>
    (match responses.headD none with
      | none => .error .architectNoResponse
      | some tp => .ok { st with task_plan := some { tp with plan := some plan } },
     responses.tail)

/-- The body of `coder_agent` once the `CoderState` is in hand: signal `DONE`
when every step is finished; otherwise run the step's worker sub-session
(`read_file` on the target plus the react-agent invocation, modelled by the
single success flag `stepOk`) and, only if it succeeds, advance
`current_step_idx` by one.  A failing sub-session raises before the index
update is reached. -/
def coder_step (stepOk : Bool) (st : GraphState) (cs : CoderState) :
    Except AgentErr GraphState :=
  if cs.task_plan.implementation_steps.length ≤ cs.current_step_idx then
    .ok { st with coder_state := some cs, status := some "DONE" }
  else if stepOk then
    .ok { st with coder_state := some ⟨cs.task_plan, cs.current_step_idx + 1⟩ }
  else
    .error (.stepFailure cs.current_step_idx
      ((cs.task_plan.implementation_steps.getD cs.current_step_idx ⟨"", ""⟩).filepath))

/-- `coder_agent` from `agent/graph.py`: initialise the `CoderState` from
`state["task_plan"]` on the first activation, then run `coder_step`. -/
def coder_agent (stepOk : Bool) (st : GraphState) : Except AgentErr GraphState :=
  match st.coder_state with
  | some cs => coder_step stepOk st cs
  | none =>
    match st.task_plan with
    | none => .error .keyError
    | some tp => coder_step stepOk st ⟨tp, 0⟩

/-- One graph-level activation of the `coder` node: a raised exception aborts
the node without updating the pipeline state (LangGraph applies a node's
update only when it returns). -/
def applyActivation (stepOk : Bool) (st : GraphState) : GraphState :=
  match coder_agent stepOk st with
  | .ok st' => st'
  | .error _ => st

/-- Iterate `applyActivation` over a list of per-activation worker outcomes. -/
def runActs (st : GraphState) : List Bool → GraphState
  | [] => st
  | b :: bs => runActs (applyActivation b st) bs

/-- The `current_step_idx` recorded in the pipeline state (0 before the
`CoderState` exists). -/
def idxOf (st : GraphState) : Nat :=
  match st.coder_state with
  | some cs => cs.current_step_idx
  | none => 0

/-- The number of implementation steps governing the execution loop. -/
def stepCount (st : GraphState) : Nat :=
  match st.coder_state with
  | some cs => cs.task_plan.implementation_steps.length
  | none =>
    match st.task_plan with
    | some tp => tp.implementation_steps.length
    | none => 0

/-- The spec's derived Termination Signal (§3): `DONE` iff
`current_step_idx ≥ length(task_plan.implementation_steps)`. -/
def derivedDone (st : GraphState) : Prop := stepCount st ≤ idxOf st

instance (st : GraphState) : Decidable (derivedDone st) := by
  unfold derivedDone
  exact inferInstance

/-- Well-formedness of a pipeline state: the step index never exceeds the
step count.  Holds for every state the graph can construct. -/
def wfState (st : GraphState) : Prop := idxOf st ≤ stepCount st

instance (st : GraphState) : Decidable (wfState st) := by
  unfold wfState
  exact inferInstance

/-- An activation in which a step is actually executed, successfully: the
worker succeeds, the loop is not yet done, and the `CoderState` is available
or constructible. -/
def executingActivation (stepOk : Bool) (st : GraphState) : Prop :=
  stepOk = true ∧ idxOf st < stepCount st ∧
    (st.coder_state.isSome ∨ st.task_plan.isSome)

/-- The initial pipeline state of the execution loop, as handed over by the
architect stage: a `TaskPlan`, no `CoderState` yet, no status. -/
def initState (tp : TaskPlan) : GraphState :=
  { user_prompt := "", plan := tp.plan, task_plan := some tp,
    coder_state := none, status := none }

/-- The compiled graph's self-loop on the `coder` node
(`add_conditional_edges` in `agent/graph.py`): activate `coder` until the
returned state carries `status = "DONE"`, then route to `END`.  All worker
sub-sessions succeed; `fuel` bounds the recursion (the CLI recursion limit).
Returns the final state and the number of activations attempted. -/
def coderLoop : Nat → GraphState → GraphState × Nat
  | 0, st => (st, 0)
  | fuel + 1, st =>
    if st.status = some "DONE" then (st, 0)
    else
      let next := coderLoop fuel (applyActivation true st)
      (next.1, next.2 + 1)

/-! ## Auxiliary predicates used in the statements below -/

/-- JSON values that `json.loads` turns into a non-string Python object
(list, int, bool, `None`): writing them raises `TypeError`. -/
def nonTextJson : JValue → Bool
  | .arr _ => true
  | .num _ => true
  | .float _ => true
  | .bool _ => true
  | .null => true
  | .str _ => false
  | .obj _ => false

/-- The input does not start with JSON whitespace. -/
def headNotWs : List Char → Prop
  | [] => True
  | c :: _ => isWsChar c = false

/-- The input does not continue a JSON number token: it starts with none of
a digit, `.`, `e`, `E` (so a preceding number token has ended there). -/
def numDelim : List Char → Prop
  | [] => True
  | c :: _ => c.isDigit = false ∧ c ≠ '.' ∧ c ≠ 'e' ∧ c ≠ 'E'

instance : (cs : List Char) → Decidable (numDelim cs)
  | [] => .isTrue trivial
  | c :: _ =>
    inferInstanceAs (Decidable (c.isDigit = false ∧ c ≠ '.' ∧ c ≠ 'e' ∧ c ≠ 'E'))

/-- A character that can legally start a serialised JSON value: not
whitespace and none of the structural delimiters. -/
def goodHead (c : Char) : Prop :=
  isWsChar c = false ∧ c ≠ ']' ∧ c ≠ '}' ∧ c ≠ ',' ∧ c ≠ ':'

instance (c : Char) : Decidable (goodHead c) := by
  unfold goodHead
  exact inferInstance

/-- Well-formedness of a `JValue` as `json.loads` produces them: every
object, recursively, has pairwise-distinct keys (Python dicts cannot hold
duplicates). -/
inductive WfJ : JValue → Prop where
  | null : WfJ .null
  | bool (b : Bool) : WfJ (.bool b)
  | num (n : Int) : WfJ (.num n)
  | float (raw : List Char) : WfJ (.float raw)
  | str (s : List Char) : WfJ (.str s)
  | arr (l : List JValue) : (∀ x ∈ l, WfJ x) → WfJ (.arr l)
  | obj (m : List (List Char × JValue)) : (m.map Prod.fst).Nodup →
      (∀ kv ∈ m, WfJ kv.2) → WfJ (.obj m)

/-- A `JValue` containing no float token anywhere: the fragment on which
re-serialisation is exactly representable (Python re-prints floats via
IEEE-754 shortest repr, which is outside this embedding). -/
inductive NoFloatJ : JValue → Prop where
  | null : NoFloatJ .null
  | bool (b : Bool) : NoFloatJ (.bool b)
  | num (n : Int) : NoFloatJ (.num n)
  | str (s : List Char) : NoFloatJ (.str s)
  | arr (l : List JValue) : (∀ x ∈ l, NoFloatJ x) → NoFloatJ (.arr l)
  | obj (m : List (List Char × JValue)) : (∀ kv ∈ m, NoFloatJ kv.2) →
      NoFloatJ (.obj m)

/-! # Theorems -/

/-! ## Filesystem map lemmas -/

theorem fsRead_fsWrite_self (fs : FS) (p : Path) (c : String) :
    fsRead (fsWrite fs p c) p = some c := by
  unfold fsRead fsWrite
  rw [List.find?_append]
  have h1 : (fs.filter fun e => e.1 ≠ p).find? (fun e => e.1 = p) = none := by
    rw [List.find?_eq_none]
    intro e he
    have := List.of_mem_filter he
    simpa using this
  rw [h1]
  simp

/-! ## C1: path sandbox containment -/

/-- **C1.** For every path string (`..`/absolute paths included),
`safe_path_for_project` either fails or returns the resolved project root or
a strict descendant of it; it never returns a path outside the root. -/
theorem c1_path_containment (root : Path) (path : String) (p : Path)
    (h : safe_path_for_project root path = .ok p) :
    p = normalize root ∨ (normalize root <+: p ∧ p ≠ normalize root) := by
  unfold safe_path_for_project at h
  split at h
  · exact Except.noConfusion h
  · next hcond =>
    have hp : normalize (joinUnder root path) = p := by
      injection h
    set q := normalize (joinUnder root path) with hq
    by_cases h1 : normalize root ∈ pyParents q
    · obtain ⟨k, hk, hr⟩ := List.mem_map.mp h1
      have hklt : k < q.length := List.mem_range.mp hk
      right
      constructor
      · rw [← hp, ← hr]
        exact List.take_prefix k q
      · intro hcontra
        have hlen : (normalize root).length = k := by
          rw [← hr, List.length_take]
          omega
        have hpq : p.length = q.length := by rw [← hp]
        rw [hcontra] at hpq
        omega
    · by_cases h2 : normalize root = q.dropLast
      · rcases hq' : q with _ | ⟨a, l⟩
        · left
          rw [← hp, hq']
          rw [hq'] at h2
          simp at h2
          exact h2.symm
        · right
          constructor
          · rw [← hp, h2]
            exact List.dropLast_prefix q
          · intro hcontra
            have hnr : (normalize root).length = q.length - 1 := by
              rw [h2, List.length_dropLast]
            have hql : 0 < q.length := by rw [hq']; simp
            have hpq : p.length = q.length := by rw [← hp]
            rw [hcontra] at hpq
            omega
      · have h3 : normalize root = q := by
          by_contra hne
          exact hcond ⟨h1, h2, fun hc => hne hc⟩
        left
        rw [← hp, ← h3]

/-- Witness for C1 at a concrete traversal attempt. -/
theorem c1_witness :
    (["proj", "b"] : Path) = normalize ["proj"] ∨
      (normalize ["proj"] <+: ["proj", "b"] ∧ (["proj", "b"] : Path) ≠ normalize ["proj"]) :=
  c1_path_containment ["proj"] "a/../b" ["proj", "b"] rfl

/-! ## C7: reading an absent file -/

/-- **C7.** `read_file` on an in-root path at which nothing exists returns
`""` and does not raise. -/
theorem c7_read_of_absent (root : Path) (fs : FS) (path : String) (p : Path)
    (hp : safe_path_for_project root path = .ok p)
    (habsent : fsRead fs p = none) (hdir : ¬ isDir root fs p) :
    read_file root fs path = .ok "" := by
  unfold read_file
  rw [hp]
  dsimp only
  rw [habsent]
  simp [hdir]

/-- Witness for C7: a fresh project root with no files. -/
theorem c7_witness : read_file ["proj"] [] "f.txt" = .ok "" :=
  c7_read_of_absent ["proj"] [] "f.txt" ["proj", "f.txt"] rfl rfl (by decide)

/-! ## C2: the verbatim write/read round trip -/

/-- **C3.** For in-root `p` and content parsing as a JSON array, number,
boolean or null, `write_file` raises `TypeError` from `f.write` after
`open(p, "w")` has already truncated the file: the file at `p` is left
*empty* (not unchanged), and a subsequent read returns `""`. -/
theorem c3_typeerror_truncates (root : Path) (fs : FS) (path content : String)
    (p : Path) (v : JValue) (hp : safe_path_for_project root path = .ok p)
    (hdir : ¬ isDir root fs p) (hanc : ¬ hasFileAncestor fs p)
    (hjson : loads content = some v) (hv : nonTextJson v = true) :
    (write_file root fs path content).2 =
        .error "TypeError: write() argument must be str" ∧
      fsRead (write_file root fs path content).1 p = some "" ∧
      read_file root (write_file root fs path content).1 path = .ok "" := by
  unfold write_file
  rw [hp]
  dsimp only
  rw [if_neg hdir, if_neg hanc, hjson]
  have hread : read_file root (fsWrite fs p "") path = .ok "" := by
    unfold read_file
    rw [hp]
    dsimp only
    rw [fsRead_fsWrite_self]
  cases v with
  | null => exact ⟨rfl, fsRead_fsWrite_self fs p "", hread⟩
  | bool b => exact ⟨rfl, fsRead_fsWrite_self fs p "", hread⟩
  | num n => exact ⟨rfl, fsRead_fsWrite_self fs p "", hread⟩
  | float raw => exact ⟨rfl, fsRead_fsWrite_self fs p "", hread⟩
  | arr l => exact ⟨rfl, fsRead_fsWrite_self fs p "", hread⟩
  | str s => simp [nonTextJson] at hv
  | obj m => simp [nonTextJson] at hv

/-- Witness for C3: `"true"` parses to a Python `bool`, the write raises,
and a pre-existing file is left empty. -/
theorem c3_witness :
    (write_file ["proj"] [(["proj", "f.txt"], "OLD")] "f.txt" "true").2 =
        .error "TypeError: write() argument must be str" ∧
      fsRead (write_file ["proj"] [(["proj", "f.txt"], "OLD")] "f.txt" "true").1
          ["proj", "f.txt"] = some "" ∧
      read_file ["proj"]
          (write_file ["proj"] [(["proj", "f.txt"], "OLD")] "f.txt" "true").1 "f.txt" =
        .ok "" :=
  c3_typeerror_truncates ["proj"] [(["proj", "f.txt"], "OLD")] "f.txt" "true"
    ["proj", "f.txt"] (.bool true) rfl (by decide) (by decide) rfl rfl

/-! ## C10: listing correctness -/

theorem c10_helper_safe_dot (root : Path) :
    safe_path_for_project root "." = .ok (normalize root) := by
  have hj : joinUnder root "." = root ++ ["."] := by
    unfold joinUnder
    rw [show isAbsPath "." = false from rfl, show splitPath "." = ["."] from rfl]
    simp
  have hnorm : normalize (joinUnder root ".") = normalize root := by
    rw [hj]
    unfold normalize
    rw [List.foldl_append]
    simp
  unfold safe_path_for_project
  rw [hnorm, if_neg]
  intro hcond
  exact hcond.2.2 rfl

theorem c10_helper_entries (root : Path) (c1 c2 : String) :
    globEntries root
        [(normalize root ++ ["a.txt"], c1), (normalize root ++ ["sub", "b.txt"], c2)]
        (normalize root) = ["a.txt", "sub/b.txt"] := by
  have hne1 : normalize root ++ ["a.txt"] ≠ normalize root := by
    intro h
    have := congrArg List.length h
    simp at this
  have hne2 : normalize root ++ ["sub", "b.txt"] ≠ normalize root := by
    intro h
    have := congrArg List.length h
    simp at this
  unfold globEntries
  rw [List.filter_cons, List.filter_cons]
  have hp1 : ((normalize root).isPrefixOf (normalize root ++ ["a.txt"]) &&
      decide (normalize root ++ ["a.txt"] ≠ normalize root)) = true := by
    simp [List.isPrefixOf_iff_prefix, List.prefix_append, hne1]
  have hp2 : ((normalize root).isPrefixOf (normalize root ++ ["sub", "b.txt"]) &&
      decide (normalize root ++ ["sub", "b.txt"] ≠ normalize root)) = true := by
    simp [List.isPrefixOf_iff_prefix, List.prefix_append, hne2]
  rw [if_pos hp1, if_pos hp2]
  simp only [List.filter_nil, List.map_cons, List.map_nil]
  rw [List.drop_left, List.drop_left]
  rfl

/-- **C10.** For a project root containing exactly the regular files
`a.txt` and `sub/b.txt`, `list_files(".")` enumerates exactly the
root-relative entries `{"a.txt", "sub/b.txt"}` (order-independent set
equality), and returns them newline-joined. -/
theorem c10_listing_correct (root : Path) (c1 c2 : String) :
    (∀ e, e ∈ globEntries root
          [(normalize root ++ ["a.txt"], c1), (normalize root ++ ["sub", "b.txt"], c2)]
          (normalize root) ↔ (e = "a.txt" ∨ e = "sub/b.txt")) ∧
      list_files root
          [(normalize root ++ ["a.txt"], c1), (normalize root ++ ["sub", "b.txt"], c2)]
          "." = .ok "a.txt\nsub/b.txt" := by
  constructor
  · intro e
    rw [c10_helper_entries]
    simp
  · unfold list_files
    rw [c10_helper_safe_dot]
    dsimp only
    have hdir : isDir root
        [(normalize root ++ ["a.txt"], c1), (normalize root ++ ["sub", "b.txt"], c2)]
        (normalize root) := Or.inl rfl
    rw [if_pos hdir, c10_helper_entries]
    rfl

/-! ## Execution-loop lemmas shared by C4, C5, C6 -/

theorem apply_core (b : Bool) (st : GraphState) :
    stepCount (applyActivation b st) = stepCount st ∧
      idxOf (applyActivation b st) =
        (if stepCount st ≤ idxOf st then idxOf st
         else if b then idxOf st + 1 else idxOf st) := by
  cases hcs : st.coder_state with
  | some cs =>
    have hidx : idxOf st = cs.current_step_idx := by simp [idxOf, hcs]
    have hsc : stepCount st = cs.task_plan.implementation_steps.length := by
      simp [stepCount, hcs]
    by_cases hle : cs.task_plan.implementation_steps.length ≤ cs.current_step_idx
    · have h : coder_agent b st =
          .ok { st with coder_state := some cs, status := some "DONE" } := by
        unfold coder_agent
        rw [hcs]
        dsimp only
        unfold coder_step
        rw [if_pos hle]
      unfold applyActivation
      rw [h]
      refine ⟨by simp [stepCount, hcs], ?_⟩
      rw [hidx, hsc, if_pos hle]
      simp [idxOf]
    · cases b
      · have h : coder_agent false st =
            .error (.stepFailure cs.current_step_idx
              ((cs.task_plan.implementation_steps.getD cs.current_step_idx
                ⟨"", ""⟩).filepath)) := by
          unfold coder_agent
          rw [hcs]
          dsimp only
          unfold coder_step
          rw [if_neg hle]
          rfl
        unfold applyActivation
        rw [h]
        refine ⟨rfl, ?_⟩
        rw [hidx, hsc, if_neg hle]
        simp
      · have h : coder_agent true st =
            .ok { st with coder_state := some ⟨cs.task_plan, cs.current_step_idx + 1⟩ } := by
          unfold coder_agent
          rw [hcs]
          dsimp only
          unfold coder_step
          rw [if_neg hle]
          rfl
        unfold applyActivation
        rw [h]
        refine ⟨by simp [stepCount, hcs], ?_⟩
        rw [hidx, hsc, if_neg hle]
        simp [idxOf]
  | none =>
    have hidx : idxOf st = 0 := by simp [idxOf, hcs]
    cases htp : st.task_plan with
    | none =>
      have hsc : stepCount st = 0 := by simp [stepCount, hcs, htp]
      have h : coder_agent b st = .error .keyError := by
        unfold coder_agent
        rw [hcs, htp]
      unfold applyActivation
      rw [h]
      refine ⟨rfl, ?_⟩
      rw [hidx, hsc]
      simp
    | some tp =>
      have hsc : stepCount st = tp.implementation_steps.length := by
        simp [stepCount, hcs, htp]
      by_cases hle : tp.implementation_steps.length ≤ 0
      · have h : coder_agent b st =
            .ok { st with coder_state := some ⟨tp, 0⟩, status := some "DONE" } := by
          unfold coder_agent
          rw [hcs, htp]
          dsimp only
          unfold coder_step
          rw [if_pos hle, htp]
        unfold applyActivation
        rw [h]
        refine ⟨by simp [stepCount, hcs, htp], ?_⟩
        rw [hidx, hsc, if_pos hle]
        simp [idxOf]
      · cases b
        · have h : coder_agent false st =
              .error (.stepFailure 0 ((tp.implementation_steps.getD 0 ⟨"", ""⟩).filepath)) := by
            unfold coder_agent
            rw [hcs, htp]
            dsimp only
            unfold coder_step
            rw [if_neg hle]
            simp [htp]
          unfold applyActivation
          rw [h]
          refine ⟨rfl, ?_⟩
          rw [hidx, hsc, if_neg hle]
          simp
        · have h : coder_agent true st = .ok { st with coder_state := some ⟨tp, 1⟩ } := by
            unfold coder_agent
            rw [hcs, htp]
            dsimp only
            unfold coder_step
            rw [if_neg hle]
            simp [htp]
          unfold applyActivation
          rw [h]
          refine ⟨by simp [stepCount, hcs, htp], ?_⟩
          rw [hidx, hsc, if_neg hle]
          simp [idxOf]

theorem stepCount_apply (b : Bool) (st : GraphState) :
    stepCount (applyActivation b st) = stepCount st :=
  (apply_core b st).1

theorem idxOf_apply_true (st : GraphState) :
    idxOf (applyActivation true st) =
      if stepCount st ≤ idxOf st then idxOf st else idxOf st + 1 := by
  rw [(apply_core true st).2]
  split <;> rfl

theorem idxOf_apply_false (st : GraphState) :
    idxOf (applyActivation false st) = idxOf st := by
  rw [(apply_core false st).2]
  split
  · rfl
  · rfl

theorem idxOf_apply_le (b : Bool) (st : GraphState) :
    idxOf st ≤ idxOf (applyActivation b st) := by
  cases b
  · rw [idxOf_apply_false]
  · rw [idxOf_apply_true]
    split <;> omega

theorem wf_apply (b : Bool) (st : GraphState) (h : wfState st) :
    wfState (applyActivation b st) := by
  unfold wfState at h ⊢
  rw [stepCount_apply]
  cases b
  · rw [idxOf_apply_false]; exact h
  · rw [idxOf_apply_true]
    split <;> omega

theorem stepCount_runActs (bs : List Bool) (st : GraphState) :
    stepCount (runActs st bs) = stepCount st := by
  induction bs generalizing st with
  | nil => rfl
  | cons b bs ih => rw [show runActs st (b :: bs) = runActs (applyActivation b st) bs from rfl,
      ih, stepCount_apply]

theorem idxOf_runActs_mono (bs : List Bool) (st : GraphState) :
    idxOf st ≤ idxOf (runActs st bs) := by
  induction bs generalizing st with
  | nil => exact Nat.le_refl _
  | cons b bs ih =>
    exact Nat.le_trans (idxOf_apply_le b st) (ih (applyActivation b st))

theorem wf_runActs (bs : List Bool) (st : GraphState) (h : wfState st) :
    wfState (runActs st bs) := by
  induction bs generalizing st with
  | nil => exact h
  | cons b bs ih => exact ih (applyActivation b st) (wf_apply b st h)

theorem idx_replicate_true (k : Nat) (st : GraphState) (h : wfState st) :
    idxOf (runActs st (List.replicate k true)) = min (idxOf st + k) (stepCount st) := by
  induction k generalizing st with
  | zero =>
    unfold wfState at h
    simp [runActs]
    omega
  | succ k ih =>
    rw [List.replicate_succ]
    rw [show runActs st (true :: List.replicate k true) =
        runActs (applyActivation true st) (List.replicate k true) from rfl]
    rw [ih _ (wf_apply true st h), stepCount_apply, idxOf_apply_true]
    unfold wfState at h
    by_cases hc : stepCount st ≤ idxOf st
    · rw [if_pos hc]; omega
    · rw [if_neg hc]; omega

/-! ## C4: monotonic progress -/

/-- **C4.** Across any sequence of `coder_agent` activations,
`current_step_idx` is non-decreasing, never exceeds the number of
implementation steps, and increases by exactly 1 in every successful
activation in which a step is executed. -/
theorem c4_monotonic_progress (st : GraphState) (bs : List Bool) (h : wfState st) :
    idxOf st ≤ idxOf (runActs st bs) ∧
      idxOf (runActs st bs) ≤ stepCount st ∧
      (∀ b, executingActivation b st → idxOf (applyActivation b st) = idxOf st + 1) := by
  refine ⟨idxOf_runActs_mono bs st, ?_, ?_⟩
  · have hwf := wf_runActs bs st h
    have hsc := stepCount_runActs bs st
    unfold wfState at hwf
    omega
  · rintro b ⟨hb, hlt, -⟩
    subst hb
    rw [idxOf_apply_true, if_neg (by omega)]

/-- Witness for C4 on a two-step plan with a failing third activation. -/
theorem c4_witness :
    idxOf (initState ⟨[⟨"a.py", "t1"⟩, ⟨"b.py", "t2"⟩], none⟩) ≤
        idxOf (runActs (initState ⟨[⟨"a.py", "t1"⟩, ⟨"b.py", "t2"⟩], none⟩)
          [true, false, true]) ∧
      idxOf (runActs (initState ⟨[⟨"a.py", "t1"⟩, ⟨"b.py", "t2"⟩], none⟩)
          [true, false, true]) ≤
        stepCount (initState ⟨[⟨"a.py", "t1"⟩, ⟨"b.py", "t2"⟩], none⟩) ∧
      (∀ b, executingActivation b (initState ⟨[⟨"a.py", "t1"⟩, ⟨"b.py", "t2"⟩], none⟩) →
        idxOf (applyActivation b (initState ⟨[⟨"a.py", "t1"⟩, ⟨"b.py", "t2"⟩], none⟩)) =
          idxOf (initState ⟨[⟨"a.py", "t1"⟩, ⟨"b.py", "t2"⟩], none⟩) + 1) :=
  c4_monotonic_progress (initState ⟨[⟨"a.py", "t1"⟩, ⟨"b.py", "t2"⟩], none⟩)
    [true, false, true] (by decide)

/-! ## C5: termination after exactly N successful activations -/

/-- **C5.** For a `TaskPlan` with `N` steps: after exactly `k` successful
step-executing activations the index is `min k N`, the derived Termination
Signal is `DONE` precisely when `N ≤ k` (so exactly `N` successful
activations are required), and once an activation has signalled
`status = "DONE"` the compiled graph's router sends the run to `END` — no
further `coder` activation is attempted. -/
theorem c5_exact_n_activations (tp : TaskPlan) :
    (∀ k, idxOf (runActs (initState tp) (List.replicate k true)) =
        min k tp.implementation_steps.length) ∧
      (∀ k, derivedDone (runActs (initState tp) (List.replicate k true)) ↔
        tp.implementation_steps.length ≤ k) ∧
      (∀ st fuel, st.status = some "DONE" → coderLoop fuel st = (st, 0)) := by
  have hwf : wfState (initState tp) := Nat.zero_le _
  have hidx0 : idxOf (initState tp) = 0 := rfl
  have hsc : stepCount (initState tp) = tp.implementation_steps.length := rfl
  refine ⟨?_, ?_, ?_⟩
  · intro k
    rw [idx_replicate_true k _ hwf, hidx0, hsc]
    omega
  · intro k
    unfold derivedDone
    rw [stepCount_runActs, idx_replicate_true k _ hwf, hidx0, hsc]
    omega
  · intro st fuel hdone
    cases fuel with
    | zero => rfl
    | succ f => simp [coderLoop, hdone]

/-- Witness for C5: a `DONE`-status state stops the loop at once. -/
theorem c5_witness :
    coderLoop 7 ⟨"", none, none, none, some "DONE"⟩ =
      (⟨"", none, none, none, some "DONE"⟩, 0) :=
  (c5_exact_n_activations ⟨[], none⟩).2.2 ⟨"", none, none, none, some "DONE"⟩ 7 rfl

/-! ## C6: a failing worker sub-session leaves the state unchanged -/

/-- **C6.** If the worker sub-session of a step fails, `coder_agent` raises
(a `StepExecutionError` tagged with the current index), the pipeline state —
including `current_step_idx` — is left unchanged, and a subsequent
successful activation executes the very same step index. -/
theorem c6_failure_resumable (st : GraphState) (hrun : idxOf st < stepCount st) :
    applyActivation false st = st ∧
      (∃ fp, coder_agent false st = .error (.stepFailure (idxOf st) fp)) ∧
      idxOf (applyActivation true (applyActivation false st)) = idxOf st + 1 := by
  have herr : ∃ fp, coder_agent false st = .error (.stepFailure (idxOf st) fp) := by
    cases hcs : st.coder_state with
    | some cs =>
      have hlen : ¬ (cs.task_plan.implementation_steps.length ≤ cs.current_step_idx) := by
        simp [idxOf, stepCount, hcs] at hrun
        omega
      refine ⟨(cs.task_plan.implementation_steps.getD cs.current_step_idx
        ⟨"", ""⟩).filepath, ?_⟩
      unfold coder_agent
      rw [hcs]
      dsimp only
      unfold coder_step
      rw [if_neg hlen]
      simp [idxOf, hcs]
    | none =>
      cases htp : st.task_plan with
      | none =>
        exfalso
        simp [idxOf, stepCount, hcs, htp] at hrun
      | some tp =>
        have hlen : ¬ (tp.implementation_steps.length ≤ (0 : Nat)) := by
          simp [idxOf, stepCount, hcs, htp] at hrun
          omega
        refine ⟨(tp.implementation_steps.getD 0 ⟨"", ""⟩).filepath, ?_⟩
        unfold coder_agent
        rw [hcs, htp]
        dsimp only
        unfold coder_step
        rw [if_neg hlen]
        simp [idxOf, hcs]
  obtain ⟨fp, hfp⟩ := herr
  have hsame : applyActivation false st = st := by
    unfold applyActivation
    rw [hfp]
  refine ⟨hsame, ⟨fp, hfp⟩, ?_⟩
  rw [hsame, idxOf_apply_true, if_neg (by omega)]

/-- Witness for C6 on a one-step plan whose first activation fails. -/
theorem c6_witness :
    applyActivation false (initState ⟨[⟨"m.py", "t"⟩], none⟩) =
        initState ⟨[⟨"m.py", "t"⟩], none⟩ ∧
      (∃ fp, coder_agent false (initState ⟨[⟨"m.py", "t"⟩], none⟩) =
        .error (.stepFailure (idxOf (initState ⟨[⟨"m.py", "t"⟩], none⟩)) fp)) ∧
      idxOf (applyActivation true
          (applyActivation false (initState ⟨[⟨"m.py", "t"⟩], none⟩))) =
        idxOf (initState ⟨[⟨"m.py", "t"⟩], none⟩) + 1 :=
  c6_failure_resumable (initState ⟨[⟨"m.py", "t"⟩], none⟩) (by decide)

/-! ## C9: planner and architect error behaviour -/

/-- **C9.** `planner_agent` raises iff the Reasoning Engine returns no
`Plan`; `architect_agent` (given the pipeline's `Plan`) raises iff the
engine returns no `TaskPlan`; on success each stores the structured value —
the architect with the original `Plan` attached — and each consumes exactly
one engine response (no retry). -/
theorem c9_planner_architect (rsP : List (Option Plan)) (rsA : List (Option TaskPlan))
    (st stA : GraphState) (pl : Plan) (hpl : stA.plan = some pl) :
    (isErr (planner_agent rsP st).1 = true ↔ rsP.headD none = none) ∧
      (∀ r, rsP.headD none = some r →
        (planner_agent rsP st).1 = .ok { st with plan := some r }) ∧
      (planner_agent rsP st).2 = rsP.tail ∧
      (isErr (architect_agent rsA stA).1 = true ↔ rsA.headD none = none) ∧
      (∀ tp, rsA.headD none = some tp →
        (architect_agent rsA stA).1 =
          .ok { stA with task_plan := some { tp with plan := some pl } }) ∧
      (architect_agent rsA stA).2 = rsA.tail := by
  refine ⟨?_, ?_, rfl, ?_, ?_, ?_⟩
  · unfold planner_agent
    cases h : rsP.headD none <;> simp [h, isErr]
  · intro r hr
    unfold planner_agent
    rw [hr]
  · unfold architect_agent
    rw [hpl]
    cases h : rsA.headD none <;> simp [h, isErr]
  · intro tp htp
    unfold architect_agent
    rw [hpl, htp]
  · unfold architect_agent
    rw [hpl]

/-- Witness for C9 with one-element engine streams. -/
theorem c9_witness :
    (isErr (planner_agent [some ⟨"app", "d", [], [], []⟩]
          ⟨"u", none, none, none, none⟩).1 = true ↔
        ([some ⟨"app", "d", [], [], []⟩].headD none : Option Plan) = none) ∧
      (∀ r, ([some ⟨"app", "d", [], [], []⟩].headD none : Option Plan) = some r →
        (planner_agent [some ⟨"app", "d", [], [], []⟩] ⟨"u", none, none, none, none⟩).1 =
          .ok { (⟨"u", none, none, none, none⟩ : GraphState) with plan := some r }) ∧
      (planner_agent [some ⟨"app", "d", [], [], []⟩]
          ⟨"u", none, none, none, none⟩).2 = [some ⟨"app", "d", [], [], []⟩].tail ∧
      (isErr (architect_agent ([none] : List (Option TaskPlan))
          ⟨"u", some ⟨"app", "d", [], [], []⟩, none, none, none⟩).1 = true ↔
        (([none] : List (Option TaskPlan)).headD none) = none) ∧
      (∀ tp, (([none] : List (Option TaskPlan)).headD none) = some tp →
        (architect_agent ([none] : List (Option TaskPlan))
            ⟨"u", some ⟨"app", "d", [], [], []⟩, none, none, none⟩).1 =
          .ok { (⟨"u", some ⟨"app", "d", [], [], []⟩, none, none, none⟩ : GraphState) with
            task_plan := some { tp with plan := some ⟨"app", "d", [], [], []⟩ } }) ∧
      (architect_agent ([none] : List (Option TaskPlan))
          ⟨"u", some ⟨"app", "d", [], [], []⟩, none, none, none⟩).2 =
        ([none] : List (Option TaskPlan)).tail :=
  c9_planner_architect [some ⟨"app", "d", [], [], []⟩] ([none] : List (Option TaskPlan))
    ⟨"u", none, none, none, none⟩ ⟨"u", some ⟨"app", "d", [], [], []⟩, none, none, none⟩
    ⟨"app", "d", [], [], []⟩ rfl

/-- Witness for C10 at a concrete project root. -/
theorem c10_witness :
    (∀ e, e ∈ globEntries ["proj"]
          [(normalize ["proj"] ++ ["a.txt"], "x"),
           (normalize ["proj"] ++ ["sub", "b.txt"], "y")]
          (normalize ["proj"]) ↔ (e = "a.txt" ∨ e = "sub/b.txt")) ∧
      list_files ["proj"]
          [(normalize ["proj"] ++ ["a.txt"], "x"),
           (normalize ["proj"] ++ ["sub", "b.txt"], "y")]
          "." = .ok "a.txt\nsub/b.txt" :=
  c10_listing_correct ["proj"] "x" "y"

/-! ## JSON parse/print round trip (towards C8) -/

theorem skipWs_not_ws (cs : List Char) (h : headNotWs cs) : skipWs cs = cs := by
  cases cs with
  | nil => rfl
  | cons c r =>
    unfold headNotWs at h
    simp [skipWs, h]

theorem skipWs_append (pre cs : List Char) (hpre : ∀ c ∈ pre, isWsChar c = true)
    (hcs : headNotWs cs) : skipWs (pre ++ cs) = cs := by
  induction pre with
  | nil => simpa using skipWs_not_ws cs hcs
  | cons c pre ih =>
    simp only [List.cons_append, skipWs]
    rw [if_pos (hpre c (by simp))]
    exact ih fun d hd => hpre d (by simp [hd])

theorem indentN_ws (n : Nat) : ∀ c ∈ indentN n, isWsChar c = true := by
  intro c hc
  unfold indentN at hc
  rw [List.eq_of_mem_replicate hc]
  rfl

theorem char_toNat_valid (c : Char) :
    c.toNat < 55296 ∨ (57344 ≤ c.toNat ∧ c.toNat < 1114112) := by
  rcases c.valid with h | ⟨h1, h2⟩
  · exact Or.inl h
  · exact Or.inr ⟨h1, h2⟩

theorem hexDigitVal_hexDigitChar (d : Nat) (h : d < 16) :
    hexDigitVal (hexDigitChar d) = some d := by
  interval_cases d <;> decide

theorem hexQuad_toHex4 (n : Nat) (h : n < 65536) :
    hexQuad (hexDigitChar (n / 4096 % 16)) (hexDigitChar (n / 256 % 16))
      (hexDigitChar (n / 16 % 16)) (hexDigitChar (n % 16)) = some n := by
  unfold hexQuad
  rw [hexDigitVal_hexDigitChar _ (Nat.mod_lt _ (by norm_num)),
    hexDigitVal_hexDigitChar _ (Nat.mod_lt _ (by norm_num)),
    hexDigitVal_hexDigitChar _ (Nat.mod_lt _ (by norm_num)),
    hexDigitVal_hexDigitChar _ (Nat.mod_lt _ (by norm_num))]
  exact congrArg some (by omega)

theorem parseStrF_quote (fuel : Nat) (r : List Char) :
    parseStrF (fuel + 1) ('"' :: r) = some ([], r) := by
  dsimp only [parseStrF]
  rw [if_pos rfl]

theorem parseStr_quote (r : List Char) : parseStr ('"' :: r) = some ([], r) :=
  parseStrF_quote (r.length + 1) r

theorem parseStrF_u_escape (fuel : Nat) (code : Nat) (hcode : code < 65536)
    (hns1 : ¬ (55296 ≤ code ∧ code ≤ 56319)) (hns2 : ¬ (56320 ≤ code ∧ code ≤ 57343))
    (r : List Char) :
    parseStrF (fuel + 1) ('\\' :: 'u' :: (toHex4 code ++ r)) =
      (parseStrF fuel r).map fun p => (Char.ofNat code :: p.1, p.2) := by
  unfold toHex4
  simp only [List.cons_append, List.nil_append]
  dsimp only [parseStrF]
  rw [if_neg (by decide), if_pos rfl, if_pos rfl]
  rw [hexQuad_toHex4 code hcode]
  dsimp only
  rw [if_neg hns1, if_neg hns2]

theorem parseStrF_pair_escape (fuel : Nat) {h1 h2 h3 h4 l1 l2 l3 l4 : Char} {hi lo : Nat}
    (hhiq : hexQuad h1 h2 h3 h4 = some hi) (hloq : hexQuad l1 l2 l3 l4 = some lo)
    (hhir : 55296 ≤ hi ∧ hi ≤ 56319) (hlor : 56320 ≤ lo ∧ lo ≤ 57343) (r : List Char) :
    parseStrF (fuel + 1)
        ('\\' :: 'u' :: h1 :: h2 :: h3 :: h4 :: '\\' :: 'u' :: l1 :: l2 :: l3 :: l4 :: r) =
      (parseStrF fuel r).map fun p =>
        (Char.ofNat (65536 + (hi - 55296) * 1024 + (lo - 56320)) :: p.1, p.2) := by
  dsimp only [parseStrF]
  rw [if_neg (by decide), if_pos rfl, if_pos rfl, hhiq]
  dsimp only
  rw [if_pos hhir, if_pos rfl, if_pos rfl, hloq]
  dsimp only
  rw [if_pos hlor]

theorem parseStrF_surrogate_escape (fuel n : Nat) (hlo : 65536 ≤ n) (hhi : n < 1114112)
    (r : List Char) :
    parseStrF (fuel + 1) ('\\' :: 'u' :: (toHex4 (55296 + (n - 65536) / 1024) ++
        ('\\' :: 'u' :: (toHex4 (56320 + (n - 65536) % 1024) ++ r)))) =
      (parseStrF fuel r).map fun p => (Char.ofNat n :: p.1, p.2) := by
  have hd : (n - 65536) / 1024 < 1024 := by omega
  have hm : (n - 65536) % 1024 < 1024 := Nat.mod_lt _ (by norm_num)
  have e1 : hexQuad (hexDigitChar ((55296 + (n - 65536) / 1024) / 4096 % 16))
      (hexDigitChar ((55296 + (n - 65536) / 1024) / 256 % 16))
      (hexDigitChar ((55296 + (n - 65536) / 1024) / 16 % 16))
      (hexDigitChar ((55296 + (n - 65536) / 1024) % 16)) =
      some (55296 + (n - 65536) / 1024) := hexQuad_toHex4 _ (by omega)
  have e2 : hexQuad (hexDigitChar ((56320 + (n - 65536) % 1024) / 4096 % 16))
      (hexDigitChar ((56320 + (n - 65536) % 1024) / 256 % 16))
      (hexDigitChar ((56320 + (n - 65536) % 1024) / 16 % 16))
      (hexDigitChar ((56320 + (n - 65536) % 1024) % 16)) =
      some (56320 + (n - 65536) % 1024) := hexQuad_toHex4 _ (by omega)
  unfold toHex4
  simp only [List.cons_append, List.nil_append]
  rw [parseStrF_pair_escape fuel e1 e2 (by omega) (by omega) r]
  have heq : 65536 + (55296 + (n - 65536) / 1024 - 55296) * 1024 +
      (56320 + (n - 65536) % 1024 - 56320) = n := by omega
  rw [heq]

theorem parseStrF_escStr (str rest : List Char) :
    ∀ fuel, str.length < fuel →
      parseStrF fuel (escStr str ++ '"' :: rest) = some (str, rest) := by
  induction str with
  | nil =>
    intro fuel hf
    cases fuel with
    | zero => omega
    | succ g =>
      show parseStrF (g + 1) ([] ++ '"' :: rest) = _
      rw [List.nil_append, parseStrF_quote]
  | cons c t ih =>
    intro fuel hf
    cases fuel with
    | zero => omega
    | succ g =>
      have ihg : parseStrF g (escStr t ++ '"' :: rest) = some (t, rest) := by
        refine ih g ?_
        simp only [List.length_cons] at hf
        omega
      show parseStrF (g + 1) ((escapeChar c ++ escStr t) ++ '"' :: rest) = _
      rw [List.append_assoc]
      unfold escapeChar
      by_cases h1 : c = '"'
      · subst h1
        simp [parseStrF, unescChar, ihg]
      · rw [if_neg h1]
        by_cases h2 : c = '\\'
        · subst h2
          simp [parseStrF, unescChar, ihg]
        · rw [if_neg h2]
          by_cases h3 : c = '\n'
          · subst h3
            simp [parseStrF, unescChar, ihg]
          · rw [if_neg h3]
            by_cases h4 : c = '\t'
            · subst h4
              simp [parseStrF, unescChar, ihg]
            · rw [if_neg h4]
              by_cases h5 : c = '\r'
              · subst h5
                simp [parseStrF, unescChar, ihg]
              · rw [if_neg h5]
                by_cases h6 : c = Char.ofNat 8
                · subst h6
                  simp [parseStrF, unescChar, ihg]
                · rw [if_neg h6]
                  by_cases h7 : c = Char.ofNat 12
                  · subst h7
                    simp [parseStrF, unescChar, ihg]
                  · rw [if_neg h7]
                    by_cases h8 : c.toNat < 32 ∨ 127 ≤ c.toNat
                    · rw [if_pos h8]
                      have hv := char_toNat_valid c
                      by_cases h9 : c.toNat < 65536
                      · rw [if_pos h9]
                        simp only [List.cons_append, List.append_assoc]
                        rw [parseStrF_u_escape g c.toNat h9 (by omega) (by omega)]
                        rw [ihg]
                        simp
                      · rw [if_neg h9]
                        simp only [List.cons_append, List.append_assoc]
                        rw [parseStrF_surrogate_escape g c.toNat (by omega) (by omega)]
                        rw [ihg]
                        simp
                    · rw [if_neg h8]
                      show parseStrF (g + 1) (c :: (escStr t ++ '"' :: rest)) = _
                      dsimp only [parseStrF]
                      rw [if_neg h1, if_neg h2, if_neg (by omega)]
                      rw [ihg]
                      rfl

theorem escStr_length_ge (s : List Char) : s.length ≤ (escStr s).length := by
  induction s with
  | nil => simp [escStr]
  | cons c t ih =>
    have h1 : 1 ≤ (escapeChar c).length := by
      unfold escapeChar
      split_ifs <;> simp [toHex4]
    simp only [escStr, List.length_append, List.length_cons]
    omega

theorem parseStr_escStr (str rest : List Char) :
    parseStr (escStr str ++ '"' :: rest) = some (str, rest) := by
  unfold parseStr
  refine parseStrF_escStr str rest _ ?_
  have := escStr_length_ge str
  simp only [List.length_append, List.length_cons]
  omega
theorem digitChar_isDigit (d : Nat) (h : d < 10) : (digitChar d).isDigit = true := by
  interval_cases d <;> decide

theorem digitVal_digitChar (d : Nat) (h : d < 10) : digitVal (digitChar d) = d := by
  interval_cases d <;> decide

theorem digitChar_ne_zero_char (d : Nat) (h : d < 10) (h0 : d ≠ 0) :
    ¬ digitChar d = '0' := by
  interval_cases d <;> simp_all <;> decide

theorem parseDigits_map (ds : List Nat) (rest : List Char)
    (hds : ∀ d ∈ ds, d < 10) (hrest : numDelim rest) :
    parseDigits (ds.map digitChar ++ rest) = (ds.map digitChar, rest) := by
  induction ds with
  | nil =>
    cases rest with
    | nil => rfl
    | cons c r =>
      obtain ⟨h1, -, -, -⟩ := hrest
      simp [parseDigits, h1]
  | cons d t ih =>
    have hd : d < 10 := hds d (by simp)
    simp only [List.map_cons, List.cons_append, parseDigits]
    rw [if_pos (digitChar_isDigit d hd)]
    simp only [List.append_eq]
    rw [ih (fun x hx => hds x (by simp [hx]))]

theorem digitsToNat_map (ds : List Nat) (hds : ∀ d ∈ ds, d < 10) :
    digitsToNat (ds.map digitChar) = ds.foldl (fun a d => 10 * a + d) 0 := by
  suffices h : ∀ acc, (ds.map digitChar).foldl (fun a c => 10 * a + digitVal c) acc =
      ds.foldl (fun a d => 10 * a + d) acc from h 0
  induction ds with
  | nil => intro acc; rfl
  | cons d t ih =>
    intro acc
    simp only [List.map_cons, List.foldl_cons]
    rw [digitVal_digitChar d (hds d (by simp))]
    exact ih (fun x hx => hds x (by simp [hx])) _

theorem foldl_digits (l : List Nat) (acc : Nat) :
    l.reverse.foldl (fun a d => 10 * a + d) acc =
      acc * 10 ^ l.length + Nat.ofDigits 10 l := by
  induction l generalizing acc with
  | nil => simp
  | cons d t ih =>
    simp only [List.reverse_cons, List.foldl_append, List.foldl_cons, List.foldl_nil,
      List.length_cons, Nat.ofDigits_cons, ih]
    ring

theorem dumpNat_zero : dumpNat 0 = ['0'] := by
  simp [dumpNat]

theorem dumpNat_pos (n : Nat) (h0 : n ≠ 0) :
    ∃ d t, (Nat.digits 10 n).reverse = d :: t ∧ d ≠ 0 ∧
      (∀ x ∈ d :: t, x < 10) ∧ dumpNat n = (d :: t).map digitChar := by
  have hne : Nat.digits 10 n ≠ [] := Nat.digits_ne_nil_iff_ne_zero.mpr h0
  have hdsne : (Nat.digits 10 n).reverse ≠ [] := by simpa using hne
  obtain ⟨d, t, hdt⟩ := List.exists_cons_of_ne_nil hdsne
  have hlt : ∀ x ∈ (Nat.digits 10 n).reverse, x < 10 := by
    intro x hx
    exact Nat.digits_lt_base (by norm_num) (List.mem_reverse.mp hx)
  have hd? : (Nat.digits 10 n).getLast? = some d := by
    rw [← List.head?_reverse, hdt]
    rfl
  have hdne : d ≠ 0 := by
    have hg := Nat.getLast_digit_ne_zero 10 h0
    have h2 : (Nat.digits 10 n).getLast? =
        some ((Nat.digits 10 n).getLast hne) := List.getLast?_eq_getLast _ _
    rw [hd?] at h2
    have h3 : d = (Nat.digits 10 n).getLast hne := Option.some.inj h2
    rw [← h3] at hg
    exact hg
  refine ⟨d, t, hdt, hdne, ?_, ?_⟩
  · intro x hx
    exact hlt x (by rw [hdt]; exact hx)
  · unfold dumpNat
    rw [if_neg h0, hdt]

theorem dumpNat_head (n : Nat) : ∃ c cs, dumpNat n = c :: cs ∧ c.isDigit = true := by
  by_cases h0 : n = 0
  · subst h0
    exact ⟨'0', [], dumpNat_zero, by decide⟩
  · obtain ⟨d, t, hdt, hdne, hlt, hmap⟩ := dumpNat_pos n h0
    exact ⟨digitChar d, t.map digitChar, by rw [hmap]; rfl,
      digitChar_isDigit d (hlt d (by simp))⟩

theorem parseUnsigned_dumpNat (n : Nat) (rest : List Char) (hrest : numDelim rest) :
    parseUnsigned (dumpNat n ++ rest) = some ((false, dumpNat n), rest) := by
  by_cases h0 : n = 0
  · subst h0
    rw [dumpNat_zero]
    cases rest with
    | nil => rfl
    | cons d r =>
      obtain ⟨hd1, hd2, hd3, hd4⟩ := hrest
      show parseUnsigned ('0' :: d :: r) = some ((false, ['0']), d :: r)
      unfold parseUnsigned
      dsimp only
      rw [if_pos (by decide), if_pos rfl]
      rw [if_neg (by simp [hd1])]
      unfold parseFracExp
      dsimp only
      rw [if_neg hd2, if_neg (by simp [hd3, hd4])]
  · obtain ⟨d, t, hdt, hdne, hlt, hmap⟩ := dumpNat_pos n h0
    rw [hmap]
    simp only [List.map_cons, List.cons_append]
    unfold parseUnsigned
    dsimp only
    rw [if_pos (digitChar_isDigit d (hlt d (by simp)))]
    rw [if_neg (digitChar_ne_zero_char d (hlt d (by simp)) hdne)]
    rw [parseDigits_map t rest (fun x hx => hlt x (by simp [hx])) hrest]
    dsimp only
    cases rest with
    | nil => rfl
    | cons c r =>
      obtain ⟨hc1, hc2, hc3, hc4⟩ := hrest
      unfold parseFracExp
      dsimp only
      rw [if_neg hc2, if_neg (by simp [hc3, hc4])]

theorem digitsToNat_dumpNat (n : Nat) : digitsToNat (dumpNat n) = n := by
  by_cases h0 : n = 0
  · subst h0
    rw [dumpNat_zero]
    decide
  · obtain ⟨d, t, hdt, hdne, hlt, hmap⟩ := dumpNat_pos n h0
    rw [hmap, digitsToNat_map _ hlt, ← hdt, foldl_digits]
    simp [Nat.ofDigits_digits]

theorem parseNumToken_dumpNat (neg : Bool) (n : Nat) (rest : List Char)
    (hrest : numDelim rest) :
    parseNumToken neg (dumpNat n ++ rest) =
      some (.num (if neg = true then -(Int.ofNat n) else Int.ofNat n), rest) := by
  unfold parseNumToken
  rw [parseUnsigned_dumpNat n rest hrest]
  dsimp only
  cases neg with
  | true => simp [digitsToNat_dumpNat]
  | false => simp [digitsToNat_dumpNat]

theorem parseVal_digit_head (fuel : Nat) (c : Char) (r : List Char) (h : c.isDigit = true) :
    parseVal (fuel + 1) (c :: r) = parseNumToken false (c :: r) := by
  have h1 : ¬ c = 'n' := by rintro rfl; exact absurd h (by decide)
  have h2 : ¬ c = 't' := by rintro rfl; exact absurd h (by decide)
  have h3 : ¬ c = 'f' := by rintro rfl; exact absurd h (by decide)
  have h4 : ¬ c = '"' := by rintro rfl; exact absurd h (by decide)
  have h5 : ¬ c = '[' := by rintro rfl; exact absurd h (by decide)
  have h6 : ¬ c = '{' := by rintro rfl; exact absurd h (by decide)
  have h7 : ¬ c = 'I' := by rintro rfl; exact absurd h (by decide)
  have h8 : ¬ c = 'N' := by rintro rfl; exact absurd h (by decide)
  have h9 : ¬ c = '-' := by rintro rfl; exact absurd h (by decide)
  dsimp only [parseVal, parseTriple]
  rw [if_neg h1, if_neg h2, if_neg h3, if_neg h4, if_neg h5, if_neg h6, if_neg h7,
    if_neg h8, if_neg h9, if_pos h]

theorem parseVal_neg_digit_head (fuel : Nat) (c : Char) (r : List Char)
    (h : c.isDigit = true) :
    parseVal (fuel + 1) ('-' :: c :: r) = parseNumToken true (c :: r) := by
  have hI : ¬ c = 'I' := by rintro rfl; exact absurd h (by decide)
  dsimp only [parseVal, parseTriple]
  rw [if_neg (by decide), if_neg (by decide), if_neg (by decide), if_neg (by decide),
    if_neg (by decide), if_neg (by decide), if_neg (by decide), if_neg (by decide),
    if_pos rfl]
  rw [if_neg hI]

theorem parseVal_dumpInt (fuel : Nat) (n : Int) (rest : List Char) (hrest : numDelim rest) :
    parseVal (fuel + 1) (dumpInt n ++ rest) = some (.num n, rest) := by
  unfold dumpInt
  by_cases hneg : n < 0
  · rw [if_pos hneg]
    obtain ⟨c, cs, hdn, hdig⟩ := dumpNat_head n.natAbs
    rw [hdn]
    show parseVal (fuel + 1) ('-' :: c :: (cs ++ rest)) = _
    rw [parseVal_neg_digit_head fuel c _ hdig]
    rw [show c :: (cs ++ rest) = dumpNat n.natAbs ++ rest by rw [hdn]; rfl]
    rw [parseNumToken_dumpNat true n.natAbs rest hrest]
    have heq : -(Int.ofNat n.natAbs) = n := by
      rw [Int.ofNat_eq_coe, Int.ofNat_natAbs_of_nonpos (le_of_lt hneg), neg_neg]
    rw [if_pos rfl, heq]
  · rw [if_neg hneg]
    obtain ⟨c, cs, hdn, hdig⟩ := dumpNat_head n.toNat
    rw [hdn]
    show parseVal (fuel + 1) (c :: (cs ++ rest)) = _
    rw [parseVal_digit_head fuel c _ hdig]
    rw [show c :: (cs ++ rest) = dumpNat n.toNat ++ rest by rw [hdn]; rfl]
    rw [parseNumToken_dumpNat false n.toNat rest hrest]
    have heq : Int.ofNat n.toNat = n := by
      rw [Int.ofNat_eq_coe, Int.toNat_of_nonneg (not_lt.mp hneg)]
    rw [if_neg (by decide), heq]
theorem isDigit_goodHead (c : Char) (h : c.isDigit = true) : goodHead c := by
  have w1 : ¬ c = ' ' := by rintro rfl; exact absurd h (by decide)
  have w2 : ¬ c = '\n' := by rintro rfl; exact absurd h (by decide)
  have w3 : ¬ c = '\t' := by rintro rfl; exact absurd h (by decide)
  have w4 : ¬ c = '\r' := by rintro rfl; exact absurd h (by decide)
  refine ⟨?_, ?_, ?_, ?_, ?_⟩
  · unfold isWsChar
    simp [w1, w2, w3, w4]
  · rintro rfl; exact absurd h (by decide)
  · rintro rfl; exact absurd h (by decide)
  · rintro rfl; exact absurd h (by decide)
  · rintro rfl; exact absurd h (by decide)

theorem dumpVal_head_good (v : JValue) (lvl : Nat) (hnf : NoFloatJ v) :
    ∃ c cs, dumpVal v lvl = c :: cs ∧ goodHead c := by
  cases v with
  | null => exact ⟨'n', ['u', 'l', 'l'], by simp [dumpVal], by decide⟩
  | bool b =>
    cases b with
    | true => exact ⟨'t', ['r', 'u', 'e'], by simp [dumpVal], by decide⟩
    | false => exact ⟨'f', ['a', 'l', 's', 'e'], by simp [dumpVal], by decide⟩
  | num n =>
    have hd : dumpVal (.num n) lvl = dumpInt n := by simp [dumpVal]
    unfold dumpInt at hd
    by_cases hneg : n < 0
    · rw [if_pos hneg] at hd
      obtain ⟨c, cs, hdn, -⟩ := dumpNat_head n.natAbs
      exact ⟨'-', _, by rw [hd, hdn], by decide⟩
    · rw [if_neg hneg] at hd
      obtain ⟨c, cs, hdn, hdig⟩ := dumpNat_head n.toNat
      exact ⟨c, cs, by rw [hd, hdn], isDigit_goodHead c hdig⟩
  | float raw => cases hnf
  | str str => exact ⟨'"', escStr str ++ ['"'], by simp [dumpVal], by decide⟩
  | arr l =>
    cases l with
    | nil => exact ⟨'[', [']'], by simp [dumpVal], by decide⟩
    | cons x xs =>
      exact ⟨'[', '\n' :: (indentN (lvl + 1) ++ dumpVal x (lvl + 1) ++ dumpElems xs (lvl + 1)
        ++ '\n' :: (indentN lvl ++ [']'])), by simp [dumpVal], by decide⟩
  | obj m =>
    cases m with
    | nil => exact ⟨'{', ['}'], by simp [dumpVal], by decide⟩
    | cons kv kvs =>
      exact ⟨'{', '\n' :: (indentN (lvl + 1) ++ dumpMember kv (lvl + 1)
        ++ dumpMembers kvs (lvl + 1) ++ '\n' :: (indentN lvl ++ ['}'])),
        by simp [dumpVal], by decide⟩

theorem goodHead_headNotWs (c : Char) (cs : List Char) (h : goodHead c) :
    headNotWs (c :: cs) := h.1

theorem recMemJValue {P : JValue → Prop} (hnull : P .null) (hbool : ∀ b, P (.bool b))
    (hnum : ∀ n, P (.num n)) (hfloat : ∀ raw, P (.float raw)) (hstr : ∀ s, P (.str s))
    (harr : ∀ l, (∀ x ∈ l, P x) → P (.arr l))
    (hobj : ∀ m, (∀ kv ∈ m, P kv.2) → P (.obj m)) : ∀ v, P v := by
  have H : ∀ N v, sizeOf v ≤ N → P v := by
    intro N
    induction N with
    | zero =>
      intro v hv
      cases v <;> simp at hv
    | succ N ih =>
      intro v hv
      cases v with
      | null => exact hnull
      | bool b => exact hbool b
      | num n => exact hnum n
      | float raw => exact hfloat raw
      | str str => exact hstr str
      | arr l =>
        refine harr l fun x hx => ih x ?_
        have h1 := List.sizeOf_lt_of_mem hx
        have h2 : sizeOf (JValue.arr l) = 1 + sizeOf l := by simp
        omega
      | obj m =>
        refine hobj m fun kv hkv => ih kv.2 ?_
        have h1 := List.sizeOf_lt_of_mem hkv
        have h2 : sizeOf kv.2 < sizeOf kv := by
          obtain ⟨a, b⟩ := kv
          simp only [Prod.mk.sizeOf_spec]
          omega
        have h3 : sizeOf (JValue.obj m) = 1 + sizeOf m := by simp
        omega
  exact fun v => H (sizeOf v) v (Nat.le_refl _)

theorem mem_insertKV_map_fst (m : List (List Char × JValue)) (k : List Char) (v : JValue)
    (x : List Char) (h : x ∈ (insertKV m k v).map Prod.fst) :
    x ∈ m.map Prod.fst ∨ x = k := by
  induction m with
  | nil =>
    simp [insertKV] at h
    exact Or.inr h
  | cons kv t ih =>
    obtain ⟨k0, v0⟩ := kv
    simp only [insertKV] at h
    by_cases hk : k0 = k
    · rw [if_pos hk] at h
      simp only [List.map_cons, List.mem_cons] at h ⊢
      tauto
    · rw [if_neg hk] at h
      simp only [List.map_cons, List.mem_cons] at h ⊢
      rcases h with h | h
      · tauto
      · rcases ih h with h2 | h2 <;> tauto

theorem insertKV_nodup (m : List (List Char × JValue)) (k : List Char) (v : JValue)
    (h : (m.map Prod.fst).Nodup) : ((insertKV m k v).map Prod.fst).Nodup := by
  induction m with
  | nil => simp [insertKV]
  | cons kv t ih =>
    obtain ⟨k0, v0⟩ := kv
    simp only [List.map_cons, List.nodup_cons] at h
    by_cases hk : k0 = k
    · unfold insertKV
      rw [if_pos hk]
      simp only [List.map_cons, List.nodup_cons]
      exact h
    · unfold insertKV
      rw [if_neg hk]
      simp only [List.map_cons, List.nodup_cons]
      refine ⟨fun hmem => ?_, ih h.2⟩
      rcases mem_insertKV_map_fst t k v k0 hmem with h2 | h2
      · exact h.1 h2
      · exact hk h2

theorem pyDict_nodupKeys (l : List (List Char × JValue)) :
    ((pyDict l).map Prod.fst).Nodup := by
  suffices h : ∀ m : List (List Char × JValue), (m.map Prod.fst).Nodup →
      ((l.foldl (fun m kv => insertKV m kv.1 kv.2) m).map Prod.fst).Nodup from
    h [] (by simp)
  induction l with
  | nil => intro m hm; exact hm
  | cons kv t ih =>
    intro m hm
    simp only [List.foldl_cons]
    exact ih _ (insertKV_nodup m kv.1 kv.2 hm)

theorem mem_insertKV (m : List (List Char × JValue)) (k : List Char) (v : JValue)
    (kv : List Char × JValue) (h : kv ∈ insertKV m k v) : kv ∈ m ∨ kv.2 = v := by
  induction m with
  | nil =>
    simp [insertKV] at h
    subst h
    exact Or.inr rfl
  | cons kv0 t ih =>
    obtain ⟨k0, v0⟩ := kv0
    simp only [insertKV] at h
    by_cases hk : k0 = k
    · rw [if_pos hk] at h
      rcases List.mem_cons.mp h with h | h
      · subst h
        exact Or.inr rfl
      · exact Or.inl (List.mem_cons.mpr (Or.inr h))
    · rw [if_neg hk] at h
      rcases List.mem_cons.mp h with h | h
      · subst h
        exact Or.inl (List.mem_cons.mpr (Or.inl rfl))
      · rcases ih h with h2 | h2
        · exact Or.inl (List.mem_cons.mpr (Or.inr h2))
        · exact Or.inr h2

theorem pyDict_values (l : List (List Char × JValue)) (P : JValue → Prop)
    (hl : ∀ kv ∈ l, P kv.2) : ∀ kv ∈ pyDict l, P kv.2 := by
  suffices h : ∀ l2 m : List (List Char × JValue), (∀ kv ∈ m, P kv.2) →
      (∀ kv ∈ l2, P kv.2) →
      ∀ kv ∈ l2.foldl (fun m kv => insertKV m kv.1 kv.2) m, P kv.2 from
    h l [] (by simp) hl
  intro l2
  induction l2 with
  | nil =>
    intro m hm _ kv hkv
    exact hm kv hkv
  | cons x t ih =>
    intro m hm hx kv hkv
    simp only [List.foldl_cons] at hkv
    refine ih (insertKV m x.1 x.2) ?_ (fun y hy => hx y (by simp [hy])) kv hkv
    intro y hy
    rcases mem_insertKV m x.1 x.2 y hy with h2 | h2
    · exact hm y h2
    · rw [h2]
      exact hx x (by simp)

theorem insertKV_not_mem (m : List (List Char × JValue)) (k : List Char) (v : JValue)
    (h : ¬ k ∈ m.map Prod.fst) : insertKV m k v = m ++ [(k, v)] := by
  induction m with
  | nil => rfl
  | cons kv0 t ih =>
    obtain ⟨k0, v0⟩ := kv0
    simp only [List.map_cons, List.mem_cons] at h
    push_neg at h
    unfold insertKV
    rw [if_neg (fun he => h.1 he.symm)]
    rw [ih h.2]
    rfl

theorem pyDict_of_nodup (l : List (List Char × JValue))
    (h : (l.map Prod.fst).Nodup) : pyDict l = l := by
  suffices haux : ∀ l2 acc : List (List Char × JValue),
      ((acc ++ l2).map Prod.fst).Nodup →
      l2.foldl (fun m kv => insertKV m kv.1 kv.2) acc = acc ++ l2 by
    exact (haux l [] (by simpa using h)).trans (List.nil_append l)
  intro l2
  induction l2 with
  | nil =>
    intro acc _
    simp
  | cons x t ih =>
    intro acc hacc
    obtain ⟨k, v⟩ := x
    simp only [List.foldl_cons]
    have hkmem : ¬ k ∈ acc.map Prod.fst := by
      simp only [List.map_append, List.map_cons, List.nodup_append] at hacc
      intro hmem
      exact hacc.2.2 hmem (List.mem_cons_self k _)
    rw [insertKV_not_mem acc k v hkmem]
    rw [ih (acc ++ [(k, v)]) (by rw [List.append_assoc, List.singleton_append]; exact hacc)]
    simp

theorem parseNumToken_shape (neg : Bool) (cs : List Char) (v : JValue) (r : List Char)
    (h : parseNumToken neg cs = some (v, r)) : WfJ v := by
  unfold parseNumToken at h
  rcases hu : parseUnsigned cs with _ | ⟨⟨isF, raw⟩, rest⟩
  · rw [hu] at h
    exact Option.noConfusion h
  · rw [hu] at h
    dsimp only at h
    by_cases hf : isF = true
    · rw [if_pos hf] at h
      simp only [Option.some.injEq, Prod.mk.injEq] at h
      rw [← h.1]
      exact WfJ.float _
    · rw [if_neg hf] at h
      by_cases hn : neg = true
      · rw [if_pos hn] at h
        simp only [Option.some.injEq, Prod.mk.injEq] at h
        rw [← h.1]
        exact WfJ.num _
      · rw [if_neg hn] at h
        simp only [Option.some.injEq, Prod.mk.injEq] at h
        rw [← h.1]
        exact WfJ.num _
theorem parseTriple_wf (fuel : Nat) :
    (∀ cs v r, (parseTriple fuel).1 cs = some (v, r) → WfJ v) ∧
    (∀ cs l r, (parseTriple fuel).2.1 cs = some (l, r) → ∀ x ∈ l, WfJ x) ∧
    (∀ cs m r, (parseTriple fuel).2.2 cs = some (m, r) → ∀ kv ∈ m, WfJ kv.2) := by
  induction fuel with
  | zero =>
    refine ⟨fun cs v r h => ?_, fun cs l r h => ?_, fun cs m r h => ?_⟩ <;>
      simp [parseTriple] at h
  | succ fuel ih =>
    obtain ⟨ih1, ih2, ih3⟩ := ih
    refine ⟨?_, ?_, ?_⟩
    · intro cs v r h
      cases cs with
      | nil => simp [parseTriple] at h
      | cons c r0 =>
        dsimp only [parseTriple] at h
        by_cases hn : c = 'n'
        · rw [if_pos hn] at h
          rcases r0 with _ | ⟨c1, _ | ⟨c2, _ | ⟨c3, r2⟩⟩⟩ <;>
            simp only [Option.ite_none_right_eq_some, Option.some.injEq,
              Prod.mk.injEq, reduceCtorEq] at h
          obtain ⟨-, -, -, rfl, rfl⟩ := h
          exact WfJ.null
        · rw [if_neg hn] at h
          by_cases ht : c = 't'
          · rw [if_pos ht] at h
            rcases r0 with _ | ⟨c1, _ | ⟨c2, _ | ⟨c3, r2⟩⟩⟩ <;>
              simp only [Option.ite_none_right_eq_some, Option.some.injEq,
                Prod.mk.injEq, reduceCtorEq] at h
            obtain ⟨-, -, -, rfl, rfl⟩ := h
            exact WfJ.bool true
          · rw [if_neg ht] at h
            by_cases hf : c = 'f'
            · rw [if_pos hf] at h
              rcases r0 with _ | ⟨c1, _ | ⟨c2, _ | ⟨c3, _ | ⟨c4, r2⟩⟩⟩⟩ <;>
                simp only [Option.ite_none_right_eq_some, Option.some.injEq,
                  Prod.mk.injEq, reduceCtorEq] at h
              obtain ⟨-, -, -, -, rfl, rfl⟩ := h
              exact WfJ.bool false
            · rw [if_neg hf] at h
              by_cases hq : c = '"'
              · rw [if_pos hq] at h
                rw [Option.map_eq_some'] at h
                obtain ⟨p, hp, hpv⟩ := h
                simp only [Prod.mk.injEq, reduceCtorEq] at hpv
                rw [← hpv.1]
                exact WfJ.str _
              · rw [if_neg hq] at h
                by_cases hb : c = '['
                · rw [if_pos hb] at h
                  rcases hsw : skipWs r0 with _ | ⟨c2, r2⟩
                  · rw [hsw] at h
                    exact Option.noConfusion h
                  · rw [hsw] at h
                    dsimp only at h
                    by_cases hc2 : c2 = ']'
                    · rw [if_pos hc2] at h
                      simp only [Option.some.injEq, Prod.mk.injEq, reduceCtorEq] at h
                      obtain ⟨rfl, rfl⟩ := h
                      exact WfJ.arr [] (by simp)
                    · rw [if_neg hc2] at h
                      rcases hv1 : (parseTriple fuel).1 (c2 :: r2) with _ | ⟨v0, r3⟩
                      · rw [hv1] at h
                        exact Option.noConfusion h
                      · rw [hv1] at h
                        dsimp only at h
                        rw [Option.map_eq_some'] at h
                        obtain ⟨p, hp, hpv⟩ := h
                        simp only [Prod.mk.injEq, reduceCtorEq] at hpv
                        rw [← hpv.1]
                        refine WfJ.arr _ ?_
                        intro x hx
                        rcases List.mem_cons.mp hx with rfl | hx2
                        · exact ih1 _ _ _ hv1
                        · exact ih2 _ _ _ hp x hx2
                · rw [if_neg hb] at h
                  by_cases hob : c = '{'
                  · rw [if_pos hob] at h
                    rcases hsw : skipWs r0 with _ | ⟨c2, r2⟩
                    · rw [hsw] at h
                      exact Option.noConfusion h
                    · rw [hsw] at h
                      dsimp only at h
                      by_cases hc2 : c2 = '}'
                      · rw [if_pos hc2] at h
                        simp only [Option.some.injEq, Prod.mk.injEq, reduceCtorEq] at h
                        obtain ⟨rfl, rfl⟩ := h
                        exact WfJ.obj [] (by simp) (by simp)
                      · rw [if_neg hc2] at h
                        by_cases hq2 : c2 = '"'
                        · rw [if_pos hq2] at h
                          rcases hps : parseStr r2 with _ | ⟨k, r3⟩
                          · rw [hps] at h
                            exact Option.noConfusion h
                          · rw [hps] at h
                            dsimp only at h
                            rcases hsw2 : skipWs r3 with _ | ⟨c3, r4⟩
                            · rw [hsw2] at h
                              exact Option.noConfusion h
                            · rw [hsw2] at h
                              dsimp only at h
                              by_cases hc3 : c3 = ':'
                              · rw [if_pos hc3] at h
                                rcases hv1 : (parseTriple fuel).1 (skipWs r4) with
                                  _ | ⟨v0, r5⟩
                                · rw [hv1] at h
                                  exact Option.noConfusion h
                                · rw [hv1] at h
                                  dsimp only at h
                                  rw [Option.map_eq_some'] at h
                                  obtain ⟨p, hp, hpv⟩ := h
                                  simp only [Prod.mk.injEq, reduceCtorEq] at hpv
                                  rw [← hpv.1]
                                  refine WfJ.obj _ (pyDict_nodupKeys _) ?_
                                  refine pyDict_values _ _ ?_
                                  intro kv hkv
                                  rcases List.mem_cons.mp hkv with rfl | hkv2
                                  · exact ih1 _ _ _ hv1
                                  · exact ih3 _ _ _ hp kv hkv2
                              · rw [if_neg hc3] at h
                                exact Option.noConfusion h
                        · rw [if_neg hq2] at h
                          exact Option.noConfusion h
                  · rw [if_neg hob] at h
                    by_cases hI : c = 'I'
                    · rw [if_pos hI] at h
                      rcases r0 with _ | ⟨c1, _ | ⟨c2, _ | ⟨c3, _ | ⟨c4, _ | ⟨c5, _ |
                        ⟨c6, _ | ⟨c7, r2⟩⟩⟩⟩⟩⟩⟩ <;>
                        simp only [Option.ite_none_right_eq_some, Option.some.injEq,
                          Prod.mk.injEq, reduceCtorEq] at h
                      obtain ⟨-, rfl, rfl⟩ := h
                      exact WfJ.float _
                    · rw [if_neg hI] at h
                      by_cases hN : c = 'N'
                      · rw [if_pos hN] at h
                        rcases r0 with _ | ⟨c1, _ | ⟨c2, r2⟩⟩ <;>
                          simp only [Option.ite_none_right_eq_some, Option.some.injEq,
                            Prod.mk.injEq, reduceCtorEq] at h
                        obtain ⟨-, rfl, rfl⟩ := h
                        exact WfJ.float _
                      · rw [if_neg hN] at h
                        by_cases hmi : c = '-'
                        · rw [if_pos hmi] at h
                          rcases r0 with _ | ⟨d, r2⟩
                          · simp at h
                          · dsimp only at h
                            by_cases hdI : d = 'I'
                            · rw [if_pos hdI] at h
                              rcases r2 with _ | ⟨c1, _ | ⟨c2, _ | ⟨c3, _ | ⟨c4, _ |
                                ⟨c5, _ | ⟨c6, _ | ⟨c7, r3⟩⟩⟩⟩⟩⟩⟩ <;>
                                simp only [Option.ite_none_right_eq_some,
                                  Option.some.injEq, Prod.mk.injEq, reduceCtorEq] at h
                              obtain ⟨-, rfl, rfl⟩ := h
                              exact WfJ.float _
                            · rw [if_neg hdI] at h
                              exact parseNumToken_shape true _ _ _ h
                        · rw [if_neg hmi] at h
                          by_cases hdg : c.isDigit = true
                          · rw [if_pos hdg] at h
                            exact parseNumToken_shape false _ _ _ h
                          · rw [if_neg hdg] at h
                            exact Option.noConfusion h
    · intro cs l r h
      cases cs with
      | nil => simp [parseTriple] at h
      | cons c r0 =>
        dsimp only [parseTriple] at h
        by_cases hcb : c = ']'
        · rw [if_pos hcb] at h
          simp only [Option.some.injEq, Prod.mk.injEq, reduceCtorEq] at h
          obtain ⟨rfl, rfl⟩ := h
          simp
        · rw [if_neg hcb] at h
          by_cases hcc : c = ','
          · rw [if_pos hcc] at h
            rcases hv1 : (parseTriple fuel).1 (skipWs r0) with _ | ⟨v0, r2⟩
            · rw [hv1] at h
              exact Option.noConfusion h
            · rw [hv1] at h
              dsimp only at h
              rw [Option.map_eq_some'] at h
              obtain ⟨p, hp, hpv⟩ := h
              simp only [Prod.mk.injEq, reduceCtorEq] at hpv
              rw [← hpv.1]
              intro x hx
              rcases List.mem_cons.mp hx with rfl | hx2
              · exact ih1 _ _ _ hv1
              · exact ih2 _ _ _ hp x hx2
          · rw [if_neg hcc] at h
            exact Option.noConfusion h
    · intro cs m r h
      cases cs with
      | nil => simp [parseTriple] at h
      | cons c r0 =>
        dsimp only [parseTriple] at h
        by_cases hcb : c = '}'
        · rw [if_pos hcb] at h
          simp only [Option.some.injEq, Prod.mk.injEq, reduceCtorEq] at h
          obtain ⟨rfl, rfl⟩ := h
          simp
        · rw [if_neg hcb] at h
          by_cases hcc : c = ','
          · rw [if_pos hcc] at h
            rcases hsw : skipWs r0 with _ | ⟨c2, r2⟩
            · rw [hsw] at h
              exact Option.noConfusion h
            · rw [hsw] at h
              dsimp only at h
              by_cases hq2 : c2 = '"'
              · rw [if_pos hq2] at h
                rcases hps : parseStr r2 with _ | ⟨k, r3⟩
                · rw [hps] at h
                  exact Option.noConfusion h
                · rw [hps] at h
                  dsimp only at h
                  rcases hsw2 : skipWs r3 with _ | ⟨c3, r4⟩
                  · rw [hsw2] at h
                    exact Option.noConfusion h
                  · rw [hsw2] at h
                    dsimp only at h
                    by_cases hc3 : c3 = ':'
                    · rw [if_pos hc3] at h
                      rcases hv1 : (parseTriple fuel).1 (skipWs r4) with _ | ⟨v0, r5⟩
                      · rw [hv1] at h
                        exact Option.noConfusion h
                      · rw [hv1] at h
                        dsimp only at h
                        rw [Option.map_eq_some'] at h
                        obtain ⟨p, hp, hpv⟩ := h
                        simp only [Prod.mk.injEq, reduceCtorEq] at hpv
                        rw [← hpv.1]
                        intro kv hkv
                        rcases List.mem_cons.mp hkv with rfl | hkv2
                        · exact ih1 _ _ _ hv1
                        · exact ih3 _ _ _ hp kv hkv2
                    · rw [if_neg hc3] at h
                      exact Option.noConfusion h
              · rw [if_neg hq2] at h
                exact Option.noConfusion h
          · rw [if_neg hcc] at h
            exact Option.noConfusion h

theorem loads_wf (s : String) (v : JValue) (h : loads s = some v) : WfJ v := by
  unfold loads at h
  rcases hp : parseVal (s.data.length + 1) (skipWs s.data) with _ | ⟨v0, rest⟩
  · rw [hp] at h
    exact Option.noConfusion h
  · rw [hp] at h
    dsimp only at h
    by_cases hr : skipWs rest = []
    · rw [if_pos hr] at h
      simp only [Option.some.injEq] at h
      rw [← h]
      exact (parseTriple_wf (s.data.length + 1)).1 _ _ _ hp
    · rw [if_neg hr] at h
      exact Option.noConfusion h
theorem numDelim_dumpElems (ys : List JValue) (lvl : Nat) (t : List Char) :
    numDelim (dumpElems ys lvl ++ '\n' :: t) := by
  cases ys with
  | nil =>
    have hd : dumpElems [] lvl = [] := by simp [dumpElems]
    rw [hd, List.nil_append]
    exact ⟨by decide, by decide, by decide, by decide⟩
  | cons z zs =>
    have hd : dumpElems (z :: zs) lvl = ',' :: '\n' ::
        (indentN lvl ++ dumpVal z lvl ++ dumpElems zs lvl) := by simp [dumpElems]
    rw [hd]
    exact ⟨by decide, by decide, by decide, by decide⟩

theorem parseElems_dumpElems (xs : List JValue)
    (IH : ∀ x ∈ xs, ∀ lvl rest fuel, NoFloatJ x → WfJ x → numDelim rest →
      (dumpVal x lvl ++ rest).length < fuel →
      parseVal fuel (dumpVal x lvl ++ rest) = some (x, rest))
    (hnf : ∀ x ∈ xs, NoFloatJ x) (hwf : ∀ x ∈ xs, WfJ x) :
    ∀ lvl rest fuel,
      (dumpElems xs (lvl + 1) ++ '\n' :: (indentN lvl ++ ']' :: rest)).length < fuel →
      parseElems fuel
          (skipWs (dumpElems xs (lvl + 1) ++ '\n' :: (indentN lvl ++ ']' :: rest))) =
        some (xs, rest) := by
  induction xs with
  | nil =>
    intro lvl rest fuel hfuel
    have hd : dumpElems [] (lvl + 1) = [] := by simp [dumpElems]
    rw [hd, List.nil_append] at hfuel ⊢
    have hskip : skipWs ('\n' :: (indentN lvl ++ ']' :: rest)) = ']' :: rest := by
      rw [show ('\n' :: (indentN lvl ++ ']' :: rest)) =
          (('\n' :: indentN lvl) ++ (']' :: rest)) by simp]
      apply skipWs_append
      · intro c hc
        rcases List.mem_cons.mp hc with h | h
        · subst h; rfl
        · exact indentN_ws lvl c h
      · show isWsChar ']' = false
        rfl
    rw [hskip]
    cases fuel with
    | zero => exact absurd hfuel (by omega)
    | succ g =>
      dsimp only [parseElems, parseTriple]
      rw [if_pos rfl]
  | cons y ys ihys =>
    intro lvl rest fuel hfuel
    have hd : dumpElems (y :: ys) (lvl + 1) = ',' :: '\n' ::
        (indentN (lvl + 1) ++ dumpVal y (lvl + 1) ++ dumpElems ys (lvl + 1)) := by
      simp [dumpElems]
    rw [hd] at hfuel ⊢
    simp only [List.cons_append, List.append_assoc] at hfuel ⊢
    rw [skipWs_not_ws _ (by show isWsChar ',' = false; rfl)]
    have hlen : (',' :: '\n' :: (indentN (lvl + 1) ++ (dumpVal y (lvl + 1) ++
        (dumpElems ys (lvl + 1) ++ '\n' :: (indentN lvl ++ ']' :: rest))))).length =
        2 + (2 * (lvl + 1)) + (dumpVal y (lvl + 1)).length +
          (dumpElems ys (lvl + 1) ++ '\n' :: (indentN lvl ++ ']' :: rest)).length := by
      simp [indentN]
      omega
    cases fuel with
    | zero => exact absurd hfuel (by omega)
    | succ g =>
      have hfuel2 : (',' :: '\n' :: (indentN (lvl + 1) ++ (dumpVal y (lvl + 1) ++
          (dumpElems ys (lvl + 1) ++ '\n' :: (indentN lvl ++ ']' :: rest))))).length
          < g + 1 := hfuel
      rw [hlen] at hfuel2
      dsimp only [parseElems, parseTriple]
      rw [if_neg (by decide), if_pos rfl]
      have hskip1 : skipWs ('\n' :: (indentN (lvl + 1) ++ (dumpVal y (lvl + 1) ++
          (dumpElems ys (lvl + 1) ++ '\n' :: (indentN lvl ++ ']' :: rest))))) =
          dumpVal y (lvl + 1) ++
            (dumpElems ys (lvl + 1) ++ '\n' :: (indentN lvl ++ ']' :: rest)) := by
        obtain ⟨c0, cs0, hc0, hg0⟩ := dumpVal_head_good y (lvl + 1) (hnf y (by simp))
        rw [show ('\n' :: (indentN (lvl + 1) ++ (dumpVal y (lvl + 1) ++
            (dumpElems ys (lvl + 1) ++ '\n' :: (indentN lvl ++ ']' :: rest))))) =
            (('\n' :: indentN (lvl + 1)) ++ (dumpVal y (lvl + 1) ++
              (dumpElems ys (lvl + 1) ++ '\n' :: (indentN lvl ++ ']' :: rest)))) by simp]
        apply skipWs_append
        · intro c hc
          rcases List.mem_cons.mp hc with h | h
          · subst h; rfl
          · exact indentN_ws _ c h
        · rw [hc0]
          exact hg0.1
      rw [hskip1]
      have hy := IH y (by simp) (lvl + 1)
        (dumpElems ys (lvl + 1) ++ '\n' :: (indentN lvl ++ ']' :: rest)) g
        (hnf y (by simp)) (hwf y (by simp))
        (numDelim_dumpElems ys (lvl + 1) _)
        (by
          simp only [List.length_append] at hfuel2 ⊢
          omega)
      have hy2 : (parseTriple g).1 (dumpVal y (lvl + 1) ++
          (dumpElems ys (lvl + 1) ++ '\n' :: (indentN lvl ++ ']' :: rest))) =
          some (y, dumpElems ys (lvl + 1) ++ '\n' :: (indentN lvl ++ ']' :: rest)) := hy
      rw [hy2]
      dsimp only
      have hys := ihys (fun x hx => IH x (by simp [hx]))
        (fun x hx => hnf x (by simp [hx])) (fun x hx => hwf x (by simp [hx]))
        lvl rest g
        (by
          have hlyge : 1 ≤ (dumpVal y (lvl + 1)).length := by
            obtain ⟨c0, cs0, hc0, -⟩ := dumpVal_head_good y (lvl + 1) (hnf y (by simp))
            rw [hc0]
            simp
          omega)
      have hys2 : (parseTriple g).2.1
          (skipWs (dumpElems ys (lvl + 1) ++ '\n' :: (indentN lvl ++ ']' :: rest))) =
          some (ys, rest) := hys
      rw [hys2]
      rfl

theorem numDelim_dumpMembers (kvs : List (List Char × JValue)) (lvl : Nat) (t : List Char) :
    numDelim (dumpMembers kvs lvl ++ '\n' :: t) := by
  cases kvs with
  | nil =>
    have hd : dumpMembers [] lvl = [] := by simp [dumpMembers]
    rw [hd, List.nil_append]
    exact ⟨by decide, by decide, by decide, by decide⟩
  | cons kv kvs =>
    have hd : dumpMembers (kv :: kvs) lvl = ',' :: '\n' ::
        (indentN lvl ++ dumpMember kv lvl ++ dumpMembers kvs lvl) := by simp [dumpMembers]
    rw [hd]
    exact ⟨by decide, by decide, by decide, by decide⟩

theorem parseMembers_dumpMembers (kvs : List (List Char × JValue))
    (IH : ∀ kv ∈ kvs, ∀ lvl rest fuel, NoFloatJ kv.2 → WfJ kv.2 → numDelim rest →
      (dumpVal kv.2 lvl ++ rest).length < fuel →
      parseVal fuel (dumpVal kv.2 lvl ++ rest) = some (kv.2, rest))
    (hnf : ∀ kv ∈ kvs, NoFloatJ kv.2) (hwf : ∀ kv ∈ kvs, WfJ kv.2) :
    ∀ lvl rest fuel,
      (dumpMembers kvs (lvl + 1) ++ '\n' :: (indentN lvl ++ '}' :: rest)).length < fuel →
      parseMembers fuel
          (skipWs (dumpMembers kvs (lvl + 1) ++ '\n' :: (indentN lvl ++ '}' :: rest))) =
        some (kvs, rest) := by
  induction kvs with
  | nil =>
    intro lvl rest fuel hfuel
    have hd : dumpMembers [] (lvl + 1) = [] := by simp [dumpMembers]
    rw [hd, List.nil_append] at hfuel ⊢
    have hskip : skipWs ('\n' :: (indentN lvl ++ '}' :: rest)) = '}' :: rest := by
      rw [show ('\n' :: (indentN lvl ++ '}' :: rest)) =
          (('\n' :: indentN lvl) ++ ('}' :: rest)) by simp]
      apply skipWs_append
      · intro c hc
        rcases List.mem_cons.mp hc with h | h
        · subst h; rfl
        · exact indentN_ws lvl c h
      · show isWsChar '}' = false
        rfl
    rw [hskip]
    cases fuel with
    | zero => exact absurd hfuel (by omega)
    | succ g =>
      dsimp only [parseMembers, parseTriple]
      rw [if_pos rfl]
  | cons kv kvs ihkvs =>
    obtain ⟨k, v⟩ := kv
    intro lvl rest fuel hfuel
    have hd : dumpMembers ((k, v) :: kvs) (lvl + 1) = ',' :: '\n' ::
        (indentN (lvl + 1) ++ dumpMember (k, v) (lvl + 1) ++ dumpMembers kvs (lvl + 1)) := by
      simp [dumpMembers]
    have hm : dumpMember (k, v) (lvl + 1) =
        '"' :: (escStr k ++ '"' :: ':' :: ' ' :: dumpVal v (lvl + 1)) := by
      simp [dumpMember]
    rw [hd, hm] at hfuel ⊢
    simp only [List.cons_append, List.append_assoc] at hfuel ⊢
    rw [skipWs_not_ws _ (by show isWsChar ',' = false; rfl)]
    cases fuel with
    | zero => exact absurd hfuel (by omega)
    | succ g =>
      have hfuel2 := hfuel
      simp only [List.length_cons, List.length_append, indentN, List.length_replicate]
        at hfuel2
      dsimp only [parseMembers, parseTriple]
      rw [if_neg (by decide), if_pos rfl]
      have hskip1 : skipWs ('\n' :: (indentN (lvl + 1) ++ ('"' :: (escStr k ++
          '"' :: ':' :: ' ' :: (dumpVal v (lvl + 1) ++ (dumpMembers kvs (lvl + 1) ++
            '\n' :: (indentN lvl ++ '}' :: rest))))))) =
          '"' :: (escStr k ++ '"' :: ':' :: ' ' :: (dumpVal v (lvl + 1) ++
            (dumpMembers kvs (lvl + 1) ++ '\n' :: (indentN lvl ++ '}' :: rest)))) := by
        rw [show ('\n' :: (indentN (lvl + 1) ++ ('"' :: (escStr k ++
            '"' :: ':' :: ' ' :: (dumpVal v (lvl + 1) ++ (dumpMembers kvs (lvl + 1) ++
              '\n' :: (indentN lvl ++ '}' :: rest))))))) =
            (('\n' :: indentN (lvl + 1)) ++ ('"' :: (escStr k ++
              '"' :: ':' :: ' ' :: (dumpVal v (lvl + 1) ++ (dumpMembers kvs (lvl + 1) ++
                '\n' :: (indentN lvl ++ '}' :: rest)))))) by simp]
        apply skipWs_append
        · intro c hc
          rcases List.mem_cons.mp hc with h | h
          · subst h; rfl
          · exact indentN_ws _ c h
        · show isWsChar '"' = false
          rfl
      rw [hskip1]
      dsimp only
      rw [if_pos rfl]
      rw [show (escStr k ++ '"' :: ':' :: ' ' :: (dumpVal v (lvl + 1) ++
          (dumpMembers kvs (lvl + 1) ++ '\n' :: (indentN lvl ++ '}' :: rest)))) =
          (escStr k ++ '"' :: (':' :: ' ' :: (dumpVal v (lvl + 1) ++
            (dumpMembers kvs (lvl + 1) ++ '\n' :: (indentN lvl ++ '}' :: rest))))) by simp]
      rw [parseStr_escStr]
      dsimp only
      rw [skipWs_not_ws _ (by show isWsChar ':' = false; rfl)]
      dsimp only
      rw [if_pos rfl]
      have hskip2 : skipWs (' ' :: (dumpVal v (lvl + 1) ++ (dumpMembers kvs (lvl + 1) ++
          '\n' :: (indentN lvl ++ '}' :: rest)))) =
          dumpVal v (lvl + 1) ++ (dumpMembers kvs (lvl + 1) ++
            '\n' :: (indentN lvl ++ '}' :: rest)) := by
        obtain ⟨c0, cs0, hc0, hg0⟩ := dumpVal_head_good v (lvl + 1) (hnf (k, v) (by simp))
        rw [show (' ' :: (dumpVal v (lvl + 1) ++ (dumpMembers kvs (lvl + 1) ++
            '\n' :: (indentN lvl ++ '}' :: rest)))) =
            ([' '] ++ (dumpVal v (lvl + 1) ++ (dumpMembers kvs (lvl + 1) ++
              '\n' :: (indentN lvl ++ '}' :: rest)))) by simp]
        apply skipWs_append
        · intro c hc
          rcases List.mem_cons.mp hc with h | h
          · subst h; rfl
          · exact absurd h (by simp)
        · rw [hc0]
          exact hg0.1
      rw [hskip2]
      have hv := IH (k, v) (by simp) (lvl + 1)
        (dumpMembers kvs (lvl + 1) ++ '\n' :: (indentN lvl ++ '}' :: rest)) g
        (hnf (k, v) (by simp)) (hwf (k, v) (by simp))
        (numDelim_dumpMembers kvs (lvl + 1) _)
        (by
          simp only [List.length_cons, List.length_append, indentN, List.length_replicate]
          omega)
      have hv2 : (parseTriple g).1 (dumpVal v (lvl + 1) ++
          (dumpMembers kvs (lvl + 1) ++ '\n' :: (indentN lvl ++ '}' :: rest))) =
          some (v, dumpMembers kvs (lvl + 1) ++ '\n' :: (indentN lvl ++ '}' :: rest)) := hv
      rw [hv2]
      dsimp only
      have hkvs := ihkvs (fun x hx => IH x (by simp [hx]))
        (fun x hx => hnf x (by simp [hx])) (fun x hx => hwf x (by simp [hx]))
        lvl rest g
        (by
          have hlyge : 1 ≤ (dumpVal v (lvl + 1)).length := by
            obtain ⟨c0, cs0, hc0, -⟩ := dumpVal_head_good v (lvl + 1) (hnf (k, v) (by simp))
            rw [hc0]
            simp
          simp only [List.length_cons, List.length_append, indentN, List.length_replicate]
          omega)
      have hkvs2 : (parseTriple g).2.2
          (skipWs (dumpMembers kvs (lvl + 1) ++ '\n' :: (indentN lvl ++ '}' :: rest))) =
          some (kvs, rest) := hkvs
      rw [hkvs2]
      rfl

theorem parseVal_dumpVal (v : JValue) :
    ∀ lvl rest fuel, NoFloatJ v → WfJ v → numDelim rest →
      (dumpVal v lvl ++ rest).length < fuel →
      parseVal fuel (dumpVal v lvl ++ rest) = some (v, rest) := by
  induction v using recMemJValue with
  | hnull =>
    intro lvl rest fuel hnf hwf hnd hfuel
    have hd : dumpVal .null lvl = ['n', 'u', 'l', 'l'] := by simp [dumpVal]
    rw [hd] at hfuel ⊢
    cases fuel with
    | zero => exact absurd hfuel (by omega)
    | succ f =>
      show parseVal (f + 1) ('n' :: 'u' :: 'l' :: 'l' :: rest) = _
      dsimp only [parseVal, parseTriple]
      rw [if_pos rfl]
      rw [if_pos rfl, if_pos rfl, if_pos rfl]
  | hbool b =>
    intro lvl rest fuel hnf hwf hnd hfuel
    cases b with
    | true =>
      have hd : dumpVal (.bool true) lvl = ['t', 'r', 'u', 'e'] := by simp [dumpVal]
      rw [hd] at hfuel ⊢
      cases fuel with
      | zero => exact absurd hfuel (by omega)
      | succ f =>
        show parseVal (f + 1) ('t' :: 'r' :: 'u' :: 'e' :: rest) = _
        dsimp only [parseVal, parseTriple]
        rw [if_neg (by decide), if_pos rfl]
        rw [if_pos rfl, if_pos rfl, if_pos rfl]
    | false =>
      have hd : dumpVal (.bool false) lvl = ['f', 'a', 'l', 's', 'e'] := by simp [dumpVal]
      rw [hd] at hfuel ⊢
      cases fuel with
      | zero => exact absurd hfuel (by omega)
      | succ f =>
        show parseVal (f + 1) ('f' :: 'a' :: 'l' :: 's' :: 'e' :: rest) = _
        dsimp only [parseVal, parseTriple]
        rw [if_neg (by decide), if_neg (by decide), if_pos rfl]
        rw [if_pos rfl, if_pos rfl, if_pos rfl, if_pos rfl]
  | hnum n =>
    intro lvl rest fuel hnf hwf hnd hfuel
    have hd : dumpVal (.num n) lvl = dumpInt n := by simp [dumpVal]
    rw [hd] at hfuel ⊢
    cases fuel with
    | zero => exact absurd hfuel (by omega)
    | succ f => exact parseVal_dumpInt f n rest hnd
  | hfloat raw =>
    intro lvl rest fuel hnf hwf hnd hfuel
    cases hnf
  | hstr str =>
    intro lvl rest fuel hnf hwf hnd hfuel
    have hd : dumpVal (.str str) lvl = '"' :: (escStr str ++ ['"']) := by simp [dumpVal]
    rw [hd] at hfuel ⊢
    simp only [List.cons_append, List.append_assoc, List.singleton_append,
      List.nil_append] at hfuel ⊢
    cases fuel with
    | zero => exact absurd hfuel (by omega)
    | succ f =>
      dsimp only [parseVal, parseTriple]
      rw [if_neg (by decide), if_neg (by decide), if_neg (by decide), if_pos rfl]
      rw [parseStr_escStr]
      rfl
  | harr l IH =>
    intro lvl rest fuel hnf hwf hnd hfuel
    have hnfl : ∀ x ∈ l, NoFloatJ x := by
      cases hnf with
      | arr _ h => exact h
    have hwfl : ∀ x ∈ l, WfJ x := by
      cases hwf with
      | arr _ h => exact h
    cases l with
    | nil =>
      have hd : dumpVal (.arr []) lvl = ['[', ']'] := by simp [dumpVal]
      rw [hd] at hfuel ⊢
      cases fuel with
      | zero => exact absurd hfuel (by omega)
      | succ f =>
        show parseVal (f + 1) ('[' :: ']' :: rest) = _
        dsimp only [parseVal, parseTriple]
        rw [if_neg (by decide), if_neg (by decide), if_neg (by decide), if_neg (by decide),
          if_pos rfl]
        rw [skipWs_not_ws _ (by show isWsChar ']' = false; rfl)]
        dsimp only
        rw [if_pos rfl]
    | cons x xs =>
      have hd : dumpVal (.arr (x :: xs)) lvl = '[' :: '\n' ::
          (indentN (lvl + 1) ++ dumpVal x (lvl + 1) ++ dumpElems xs (lvl + 1)
            ++ '\n' :: (indentN lvl ++ [']'])) := by simp [dumpVal]
      rw [hd] at hfuel ⊢
      simp only [List.cons_append, List.append_assoc, List.singleton_append,
        List.nil_append] at hfuel ⊢
      cases fuel with
      | zero => exact absurd hfuel (by omega)
      | succ f =>
        have hfuel2 := hfuel
        simp only [List.length_cons, List.length_append, indentN, List.length_replicate]
          at hfuel2
        dsimp only [parseVal, parseTriple]
        rw [if_neg (by decide), if_neg (by decide), if_neg (by decide), if_neg (by decide),
          if_pos rfl]
        obtain ⟨c0, cs0, hc0, hg0⟩ := dumpVal_head_good x (lvl + 1) (hnfl x (by simp))
        have hskip1 : skipWs ('\n' :: (indentN (lvl + 1) ++ (dumpVal x (lvl + 1) ++
            (dumpElems xs (lvl + 1) ++ '\n' :: (indentN lvl ++ ']' :: rest))))) =
            c0 :: (cs0 ++ (dumpElems xs (lvl + 1) ++
              '\n' :: (indentN lvl ++ ']' :: rest))) := by
          rw [show ('\n' :: (indentN (lvl + 1) ++ (dumpVal x (lvl + 1) ++
              (dumpElems xs (lvl + 1) ++ '\n' :: (indentN lvl ++ ']' :: rest))))) =
              (('\n' :: indentN (lvl + 1)) ++ (dumpVal x (lvl + 1) ++
                (dumpElems xs (lvl + 1) ++ '\n' :: (indentN lvl ++ ']' :: rest)))) by simp]
          rw [skipWs_append _ _ ?hws ?hnw]
          case hws =>
            intro c hc
            rcases List.mem_cons.mp hc with h | h
            · subst h; rfl
            · exact indentN_ws _ c h
          case hnw =>
            rw [hc0]
            exact hg0.1
          rw [hc0, List.cons_append]
        rw [hskip1]
        dsimp only
        rw [if_neg hg0.2.1]
        rw [show c0 :: (cs0 ++ (dumpElems xs (lvl + 1) ++
            '\n' :: (indentN lvl ++ ']' :: rest))) = dumpVal x (lvl + 1) ++
            (dumpElems xs (lvl + 1) ++ '\n' :: (indentN lvl ++ ']' :: rest)) by
          rw [hc0, List.cons_append]]
        have hx := IH x (by simp) (lvl + 1)
          (dumpElems xs (lvl + 1) ++ '\n' :: (indentN lvl ++ ']' :: rest)) f
          (hnfl x (by simp)) (hwfl x (by simp))
          (numDelim_dumpElems xs (lvl + 1) _)
          (by
            simp only [List.length_cons, List.length_append, indentN, List.length_replicate]
            omega)
        have hx2 : (parseTriple f).1 (dumpVal x (lvl + 1) ++
            (dumpElems xs (lvl + 1) ++ '\n' :: (indentN lvl ++ ']' :: rest))) =
            some (x, dumpElems xs (lvl + 1) ++ '\n' :: (indentN lvl ++ ']' :: rest)) := hx
        rw [hx2]
        dsimp only
        have hxs := parseElems_dumpElems xs (fun y hy => IH y (by simp [hy]))
          (fun y hy => hnfl y (by simp [hy])) (fun y hy => hwfl y (by simp [hy]))
          lvl rest f
          (by
            have hlyge : 1 ≤ (dumpVal x (lvl + 1)).length := by
              rw [hc0]
              simp
            simp only [List.length_cons, List.length_append, indentN, List.length_replicate]
            omega)
        have hxs2 : (parseTriple f).2.1
            (skipWs (dumpElems xs (lvl + 1) ++ '\n' :: (indentN lvl ++ ']' :: rest))) =
            some (xs, rest) := hxs
        rw [hxs2]
        rfl
  | hobj m IH =>
    intro lvl rest fuel hnf hwf hnd hfuel
    have hnfm : ∀ kv ∈ m, NoFloatJ kv.2 := by
      cases hnf with
      | obj _ h => exact h
    have hwfm : ∀ kv ∈ m, WfJ kv.2 := by
      cases hwf with
      | obj _ hk h => exact h
    have hndk : (m.map Prod.fst).Nodup := by
      cases hwf with
      | obj _ hk h => exact hk
    cases m with
    | nil =>
      have hd : dumpVal (.obj []) lvl = ['{', '}'] := by simp [dumpVal]
      rw [hd] at hfuel ⊢
      cases fuel with
      | zero => exact absurd hfuel (by omega)
      | succ f =>
        show parseVal (f + 1) ('{' :: '}' :: rest) = _
        dsimp only [parseVal, parseTriple]
        rw [if_neg (by decide), if_neg (by decide), if_neg (by decide), if_neg (by decide),
          if_neg (by decide), if_pos rfl]
        rw [skipWs_not_ws _ (by show isWsChar '}' = false; rfl)]
        dsimp only
        rw [if_pos rfl]
    | cons kv kvs =>
      obtain ⟨k, v⟩ := kv
      have hd : dumpVal (.obj ((k, v) :: kvs)) lvl = '{' :: '\n' ::
          (indentN (lvl + 1) ++ dumpMember (k, v) (lvl + 1) ++ dumpMembers kvs (lvl + 1)
            ++ '\n' :: (indentN lvl ++ ['}'])) := by simp [dumpVal]
      have hm : dumpMember (k, v) (lvl + 1) =
          '"' :: (escStr k ++ '"' :: ':' :: ' ' :: dumpVal v (lvl + 1)) := by
        simp [dumpMember]
      rw [hd, hm] at hfuel ⊢
      simp only [List.cons_append, List.append_assoc, List.singleton_append,
        List.nil_append] at hfuel ⊢
      cases fuel with
      | zero => exact absurd hfuel (by omega)
      | succ f =>
        have hfuel2 := hfuel
        simp only [List.length_cons, List.length_append, indentN, List.length_replicate]
          at hfuel2
        dsimp only [parseVal, parseTriple]
        rw [if_neg (by decide), if_neg (by decide), if_neg (by decide), if_neg (by decide),
          if_neg (by decide), if_pos rfl]
        have hskip1 : skipWs ('\n' :: (indentN (lvl + 1) ++ ('"' :: (escStr k ++
            '"' :: ':' :: ' ' :: (dumpVal v (lvl + 1) ++ (dumpMembers kvs (lvl + 1) ++
              '\n' :: (indentN lvl ++ '}' :: rest))))))) =
            '"' :: (escStr k ++ '"' :: ':' :: ' ' :: (dumpVal v (lvl + 1) ++
              (dumpMembers kvs (lvl + 1) ++ '\n' :: (indentN lvl ++ '}' :: rest)))) := by
          rw [show ('\n' :: (indentN (lvl + 1) ++ ('"' :: (escStr k ++
              '"' :: ':' :: ' ' :: (dumpVal v (lvl + 1) ++ (dumpMembers kvs (lvl + 1) ++
                '\n' :: (indentN lvl ++ '}' :: rest))))))) =
              (('\n' :: indentN (lvl + 1)) ++ ('"' :: (escStr k ++
                '"' :: ':' :: ' ' :: (dumpVal v (lvl + 1) ++ (dumpMembers kvs (lvl + 1) ++
                  '\n' :: (indentN lvl ++ '}' :: rest)))))) by simp]
          apply skipWs_append
          · intro c hc
            rcases List.mem_cons.mp hc with h | h
            · subst h; rfl
            · exact indentN_ws _ c h
          · show isWsChar '"' = false
            rfl
        rw [hskip1]
        dsimp only
        rw [if_neg (by decide), if_pos rfl]
        rw [show (escStr k ++ '"' :: ':' :: ' ' :: (dumpVal v (lvl + 1) ++
            (dumpMembers kvs (lvl + 1) ++ '\n' :: (indentN lvl ++ '}' :: rest)))) =
            (escStr k ++ '"' :: (':' :: ' ' :: (dumpVal v (lvl + 1) ++
              (dumpMembers kvs (lvl + 1) ++ '\n' :: (indentN lvl ++ '}' :: rest))))) by simp]
        rw [parseStr_escStr]
        dsimp only
        rw [skipWs_not_ws _ (by show isWsChar ':' = false; rfl)]
        dsimp only
        rw [if_pos rfl]
        have hskip2 : skipWs (' ' :: (dumpVal v (lvl + 1) ++ (dumpMembers kvs (lvl + 1) ++
            '\n' :: (indentN lvl ++ '}' :: rest)))) =
            dumpVal v (lvl + 1) ++ (dumpMembers kvs (lvl + 1) ++
              '\n' :: (indentN lvl ++ '}' :: rest)) := by
          obtain ⟨c0, cs0, hc0, hg0⟩ := dumpVal_head_good v (lvl + 1) (hnfm (k, v) (by simp))
          rw [show (' ' :: (dumpVal v (lvl + 1) ++ (dumpMembers kvs (lvl + 1) ++
              '\n' :: (indentN lvl ++ '}' :: rest)))) =
              ([' '] ++ (dumpVal v (lvl + 1) ++ (dumpMembers kvs (lvl + 1) ++
                '\n' :: (indentN lvl ++ '}' :: rest)))) by simp]
          apply skipWs_append
          · intro c hc
            rcases List.mem_cons.mp hc with h | h
            · subst h; rfl
            · exact absurd h (by simp)
          · rw [hc0]
            exact hg0.1
        rw [hskip2]
        have hv := IH (k, v) (by simp) (lvl + 1)
          (dumpMembers kvs (lvl + 1) ++ '\n' :: (indentN lvl ++ '}' :: rest)) f
          (hnfm (k, v) (by simp)) (hwfm (k, v) (by simp))
          (numDelim_dumpMembers kvs (lvl + 1) _)
          (by
            simp only [List.length_cons, List.length_append, indentN, List.length_replicate]
            omega)
        have hv2 : (parseTriple f).1 (dumpVal v (lvl + 1) ++
            (dumpMembers kvs (lvl + 1) ++ '\n' :: (indentN lvl ++ '}' :: rest))) =
            some (v, dumpMembers kvs (lvl + 1) ++
              '\n' :: (indentN lvl ++ '}' :: rest)) := hv
        rw [hv2]
        dsimp only
        have hkvs := parseMembers_dumpMembers kvs (fun y hy => IH y (by simp [hy]))
          (fun y hy => hnfm y (by simp [hy])) (fun y hy => hwfm y (by simp [hy]))
          lvl rest f
          (by
            have hlyge : 1 ≤ (dumpVal v (lvl + 1)).length := by
              obtain ⟨c0, cs0, hc0, -⟩ :=
                dumpVal_head_good v (lvl + 1) (hnfm (k, v) (by simp))
              rw [hc0]
              simp
            simp only [List.length_cons, List.length_append, indentN, List.length_replicate]
            omega)
        have hkvs2 : (parseTriple f).2.2
            (skipWs (dumpMembers kvs (lvl + 1) ++ '\n' :: (indentN lvl ++ '}' :: rest))) =
            some (kvs, rest) := hkvs
        rw [hkvs2]
        simp only [Option.map_some']
        rw [pyDict_of_nodup _ hndk]

/-- The parse/print round trip `json.loads(json.dumps(v, indent=2)) = v`, for
values without float tokens (Python re-prints floats through their IEEE-754
shortest representation, outside this embedding) and with recursively
duplicate-free object keys (exactly the values `json.loads` produces). -/
theorem loads_dumps (v : JValue) (hwf : WfJ v) (hnf : NoFloatJ v) :
    loads (dumps v) = some v := by
  unfold loads dumps
  obtain ⟨c0, cs0, hc0, hg0⟩ := dumpVal_head_good v 0 hnf
  have hdata : (String.mk (dumpVal v 0)).data = dumpVal v 0 := rfl
  rw [hdata]
  rw [skipWs_not_ws _ (by rw [hc0]; exact hg0.1)]
  have h := parseVal_dumpVal v 0 [] ((dumpVal v 0).length + 1) hnf hwf trivial (by simp)
  rw [List.append_nil] at h
  rw [h]
  dsimp only
  simp [skipWs]
/-! ## C8: mapping-shaped content is canonically re-serialised -/

/-- **C8.** For in-root `p` and content parsing as a JSON mapping (restricted
to mappings without float-valued leaves, whose re-serialisation goes through
IEEE-754 shortest repr and is outside this embedding), `write_file` writes
`json.dumps(mapping, indent=2)` — the canonical two-space-indented
re-serialisation — so the subsequent `read_file` returns exactly that string,
which is semantically equal as JSON to the original content (both parse to the
same value) though not necessarily byte-identical. -/
theorem c8_mapping_canonical (root : Path) (fs : FS) (path content : String)
    (p : Path) (m : List (List Char × JValue))
    (hp : safe_path_for_project root path = .ok p)
    (hdir : ¬ isDir root fs p) (hanc : ¬ hasFileAncestor fs p)
    (hjson : loads content = some (.obj m)) (hnf : NoFloatJ (.obj m)) :
    (write_file root fs path content).2 = .ok ("WROTE:" ++ pathToString p) ∧
      read_file root (write_file root fs path content).1 path =
        .ok (dumps (.obj m)) ∧
      loads (dumps (.obj m)) = loads content := by
  have hwf : WfJ (.obj m) := loads_wf content _ hjson
  unfold write_file
  rw [hp]
  dsimp only
  rw [if_neg hdir, if_neg hanc, hjson]
  refine ⟨rfl, ?_, ?_⟩
  · unfold read_file
    rw [hp]
    dsimp only
    rw [fsRead_fsWrite_self]
  · exact loads_dumps _ hwf hnf

/-- Witness for C8 at the mapping `{"a": 1}`. -/
theorem c8_witness :
    (write_file ["proj"] [] "f.txt" "\x7b\"a\": 1\x7d").2 =
        .ok ("WROTE:" ++ pathToString ["proj", "f.txt"]) ∧
      read_file ["proj"] (write_file ["proj"] [] "f.txt" "\x7b\"a\": 1\x7d").1 "f.txt" =
        .ok (dumps (.obj [(['a'], .num 1)])) ∧
      loads (dumps (.obj [(['a'], .num 1)])) = loads "\x7b\"a\": 1\x7d" :=
  c8_mapping_canonical ["proj"] [] "f.txt" "\x7b\"a\": 1\x7d" ["proj", "f.txt"]
    [(['a'], .num 1)] rfl (by decide) (by decide) rfl
    (NoFloatJ.obj _ (by
      intro kv hkv
      rw [List.mem_singleton] at hkv
      subst hkv
      exact NoFloatJ.num 1))

end BuildBuddy
